import Mathlib

/-!
# Port forwarding and logging proxy (proxy.c)

A shallow embedding of the data plane of the proxy: the C string helpers, the
transcript formatter `formatString`, the substitution engine `replaceString`
and the relay loop of `connThread`, followed by theorems about them.

Modelling conventions.

* A byte of memory is a natural number below 256. A C string is the run of bytes
  before the first NUL (`cstr`).  Functions that receive a `char *` receive the
  memory contents as a list and read it only through `cstr`, `strlen` or an index
  below `strlen`, as the C code does.
* Whether plain `char` is signed is implementation defined; the flag `sgn` chooses
  (true on x86 Linux).  It only matters for bytes of 128 and above.
* A local array such as `temp` is represented by the bytes stored so far, i.e. the
  cells `temp[0 .. index)`.  The arrays of `replaceString` carry their capacity: a
  store past the end of `buf` or `temp` is undefined behaviour and the model then
  has no result (`Scan.overflow`, `none`).  For `formatString` the capacities are
  accounted for by separate definitions (`stripTempWritten`, `stripTempCapacity`).
* `sprintf` into a small local array followed by a copy of the first k cells is
  modelled by the first k characters that `sprintf` produces.
* The `while (1)` scan of `replaceString` is a fuel-indexed function returning
  `Scan.fuel` when the fuel runs out; `replaceLoop_eq` shows the fuel used by
  `replaceString` always suffices when the pattern is not empty.
* System calls are replaced by the values the environment returns for them.
-/

namespace Proxy

/-! ## C strings and characters -/

/-- The bytes of the C string stored at the start of `s`: everything before the first NUL. -/
def cstr (s : List Nat) : List Nat := s.takeWhile (fun b => b != 0)

/-- The C library function strlen. -/
def strlen (s : List Nat) : Nat := (cstr s).length

/-- Value of a `char` holding byte `b` once promoted to `int`. -/
def charToInt (sgn : Bool) (b : Nat) : Int :=
  if sgn && decide (128 ≤ b) then (b : Int) - 256 else (b : Int)

/-- The C library function isprint in the C locale. -/
def isprint (c : Int) : Bool := decide (32 ≤ c) && decide (c ≤ 126)

/-- One uppercase hexadecimal digit as a character code. -/
def hexDigit (d : Nat) : Nat := if d < 10 then 48 + d else 55 + d

/-- The `w` low hexadecimal digits of `n`, most significant first. -/
def hexFixed : Nat → Nat → List Nat
  | 0, _ => []
  | w + 1, n => hexFixed w (n / 16) ++ [hexDigit (n % 16)]

/-- Characters produced by the printf conversion `%0wX` (w at most 8) for the `int` argument `v`,
which printf reads as a 32-bit unsigned value. -/
def fmtX (w : Nat) (v : Int) : List Nat :=
  let ds := hexFixed 8 (v % 4294967296).toNat
  ds.drop (min (ds.takeWhile (fun d => d == 48)).length (8 - w))

/-- The direction tag: `--> ` when `out` is nonzero, `<-- ` otherwise. -/
def arrow (out : Int) : List Nat :=
  if out ≠ 0 then [45, 45, 62, 32] else [60, 45, 45, 32]

/-- Character codes of a string literal. -/
def bytesOf (s : String) : List Nat := s.data.map Char.toNat

/-! ## Configuration -/

/-- The fields of the global struct read by the data plane.  `rules` holds the pairs
`(replaceText[i], replaceWith[i])` for `i < replaceCount`. -/
structure Globals where
  rawFlag : Int
  stripFlag : Int
  hexFlag : Int
  autoValue : Int
  rules : List (List Nat × List Nat)

/-- Size of `globals.buffer`. -/
def BUFSZ : Nat := 1024

/-! ## formatString -/

/-- Body of the hex-mode loop of formatString for index `i`; `temp` holds `temp[0 .. index)`. -/
def hexStep (sgn : Bool) (input : List Nat) (out : Int) (temp : List Nat) (i : Nat) : List Nat :=
  let cint := charToInt sgn (input.getD i 0)
  let chex := fmtX 2 cint
  let temp := temp ++ [chex.getD 0 0, chex.getD 1 0, 32]
  if (i + 1) % 8 = 0 ∧ (i + 1) % 16 ≠ 0 then
    temp ++ [32]
  else if (i + 1) % 16 = 0 ∨ i = strlen input - 1 then
    let nchar := if (i + 1) % 16 = 0 then 16 else (i + 1) % 16
    let actualstr := [32, 32, 124]
      ++ (List.range nchar).map (fun k => input.getD (i + k + 1 - nchar) 0) ++ [124]
    let temp := temp
      ++ (cstr actualstr).map (fun c => if isprint (charToInt sgn c) then c else 46)
    if (i + 1) % 16 = 0 then
      temp ++ (([10] ++ arrow out ++ fmtX 8 ((i : Int) + 1) ++ [32, 32]).take 15)
    else temp
  else temp

/-- The loop `for (i = ...; i < strlen(input); i++)` of hex mode, with `n` iterations left. -/
def hexLoop (sgn : Bool) (input : List Nat) (out : Int) : Nat → Nat → List Nat → List Nat
  | 0, _, temp => temp
  | n + 1, i, temp => hexLoop sgn input out n (i + 1) (hexStep sgn input out temp i)

/-- Body of the auto-mode loop of formatString for index `i`. -/
def autoStep (sgn : Bool) (autoValue : Int) (input : List Nat) (out : Int) (temp : List Nat)
    (i : Nat) : List Nat :=
  let cint := charToInt sgn (input.getD i 0)
  let temp :=
    if cint = 92 then temp ++ [92, 92]
    else if cint = 9 then temp ++ [92, 116]
    else if cint = 10 then temp ++ [92, 110]
    else if cint = 13 then temp ++ [92, 114]
    else if 32 ≤ cint ∧ cint ≤ 127 then temp ++ [input.getD i 0]
    else temp ++ (([92] ++ fmtX 2 cint).take 3)
  if ((i : Int) + 1) % autoValue = 0 then temp ++ (([10] ++ arrow out).take 5) else temp

/-- The loop of auto mode, with `n` iterations left. -/
def autoLoop (sgn : Bool) (autoValue : Int) (input : List Nat) (out : Int) :
    Nat → Nat → List Nat → List Nat
  | 0, _, temp => temp
  | n + 1, i, temp =>
    autoLoop sgn autoValue input out n (i + 1) (autoStep sgn autoValue input out temp i)

/-- The function formatString: the C string left in `output`. -/
def formatString (sgn : Bool) (g : Globals) (input : List Nat) (out : Int) : List Nat :=
  if g.rawFlag ≠ 0 then
    arrow out ++ cstr input ++ [10]
  else if g.stripFlag ≠ 0 then
    let temp := (cstr input).map (fun b => if !isprint (charToInt sgn b) then 46 else b)
    arrow out ++ cstr temp ++ [10]
  else if g.hexFlag ≠ 0 then
    let temp := hexLoop sgn input out (strlen input) 0
      (arrow out ++ [48, 48, 48, 48, 48, 48, 48, 48, 32, 32])
    cstr (temp ++ [10])
  else if g.autoValue > 0 then
    let temp := autoLoop sgn g.autoValue input out (strlen input) 0 (arrow out)
    cstr (temp ++ [10])
  else []

/-! ## replaceString -/

/-- The C library function strstr on C strings: offset of the first occurrence of `needle`. -/
def strstr (hay needle : List Nat) : Option Nat :=
  match hay with
  | [] => if needle.isEmpty then some 0 else none
  | c :: t => if needle.isPrefixOf (c :: t) then some 0 else (strstr t needle).map (· + 1)

/-- How the scan of one rule ends: with the string built in `buf`, with a store past the
end of `buf` (undefined behaviour), or with the iteration bound reached. -/
inductive Scan
  | done (buf : List Nat)
  | overflow
  | fuel
  deriving DecidableEq

/-- The `while (1)` loop of replaceString for one rule.  `tmp` is the string at the pointer
`tmp`, `buf` the bytes written before `insptr` into `char buf[1024]`.  The two `memcpy`
calls store the cells up to index `len(buf) + k + nout`, the final `strcpy` stores the rest
of the string and its NUL; a store outside the 1024 cells gives `Scan.overflow`.  The first
argument bounds the number of iterations. -/
def replaceLoop (text with_ : List Nat) : Nat → List Nat → List Nat → Scan
  | 0, _, _ => Scan.fuel
  | fuel + 1, tmp, buf =>
    match strstr tmp text with
    | none =>
      if buf.length + tmp.length + 1 ≤ BUFSZ then Scan.done (buf ++ tmp) else Scan.overflow
    | some k =>
      if buf.length + k + with_.length ≤ BUFSZ then
        replaceLoop text with_ fuel (tmp.drop (k + text.length)) (buf ++ tmp.take k ++ with_)
      else Scan.overflow

/-- The loop over the rules in replaceString; `temp` is the C string in `temp`.  There is no
result when the scan of a rule stores outside `buf`. -/
def replaceRules : List (List Nat × List Nat) → List Nat → Option (List Nat)
  | [], temp => some temp
  | (text, with_) :: rest, temp =>
    if strlen text = 0 then some temp
    else
      match replaceLoop (cstr text) (cstr with_) (temp.length + 1) temp [] with
      | Scan.done buf => replaceRules rest (cstr buf)
      | Scan.overflow => none
      | Scan.fuel => none

/-- The function replaceString: the C string left in `output`.  `strcpy(temp, input)` stores
the string and its NUL into `char temp[4*sizeof(globals.buffer)]`; there is no result when
that store, or a store of a scan, leaves its array. -/
def replaceString (rules : List (List Nat × List Nat)) (input : List Nat) : Option (List Nat) :=
  if strlen input + 1 ≤ 4 * BUFSZ then replaceRules rules (cstr input) else none

/-! ## The relay session -/

/-- The two sockets of a session. -/
inductive Fd
  | conn
  | dest
  deriving DecidableEq

/-- Observable actions of a session. -/
inductive Event
  | write (fd : Fd) (bytes : List Nat)
  | printf (fmt : List Nat)
  | close (fd : Fd)
  deriving DecidableEq

/-- Result of `write(fd, buf, count)`: what the kernel offers, never more than `count`. -/
def sysWrite (ret : Int) (count : Nat) : Int := if ret ≤ (count : Int) then ret else (count : Int)

/-- The function writeStrToFd: the write request and its result. -/
def writeStrToFd (fd : Fd) (str : List Nat) (ret : Int) : Event × Int :=
  (Event.write fd (cstr str), sysWrite ret (strlen str))

/-- The call `bzero(globals.buffer, sizeof(globals.buffer)-1)`. -/
def bzeroBuffer (buffer : List Nat) : List Nat :=
  List.replicate (BUFSZ - 1) 0 ++ buffer.drop (BUFSZ - 1)

/-- The call `read(fd, globals.buffer, sizeof(globals.buffer))` storing `data`
(nothing when the read fails or meets end of file). -/
def readInto (buffer data : List Nat) : List Nat :=
  data.take BUFSZ ++ buffer.drop (min data.length BUFSZ)

/-- Memory seen through the pointer `globals.buffer` after
`globals.buffer[sizeof(globals.buffer)] = 0`: the array followed by a NUL. -/
def chunkString (buffer : List Nat) : List Nat := buffer.take BUFSZ ++ [0]

/-- One direction of one iteration of the relay loop: read, substitute, forward, log.
Returns the actions, whether `break` was taken, and the buffer contents; there is no result
when replaceString has none (a store outside one of its arrays). -/
def relayHalf (sgn : Bool) (g : Globals) (buffer : List Nat) (target : Fd) (out : Int)
    (data : List Nat) (writeRet : Int) : Option (List Event × Bool × List Nat) :=
  let buffer := readInto (bzeroBuffer buffer) data
  match replaceString g.rules (chunkString buffer) with
  | none => none
  | some replaced =>
    let w := writeStrToFd target replaced writeRet
    if w.2 < 1 then some ([w.1], true, buffer)
    else some ([w.1, Event.printf (formatString sgn g replaced out)], false, buffer)

/-- What the environment returns during one iteration of the relay loop. -/
structure IterEnv where
  destret : Int
  destData : List Nat
  connWriteRet : Int
  srcret : Int
  srcIsSet : Bool
  connData : List Nat
  destWriteRet : Int

/-- One iteration of the `while (1)` loop of connThread. -/
def relayIter (sgn : Bool) (g : Globals) (buffer : List Nat) (e : IterEnv) :
    Option (List Event × Bool × List Nat) :=
  let up :=
    if e.destret > 0 then relayHalf sgn g buffer Fd.conn 0 e.destData e.connWriteRet
    else some ([], false, buffer)
  match up with
  | none => none
  | some (ev1, true, b1) => some (ev1, true, b1)
  | some (ev1, false, b1) =>
    if e.srcret > 0 ∧ e.srcIsSet = true then
      match relayHalf sgn g b1 Fd.dest 1 e.connData e.destWriteRet with
      | none => none
      | some (ev2, brk, b2) => some (ev1 ++ ev2, brk, b2)
    else some (ev1, false, b1)

/-- The relay loop run against a finite script of environment answers.  The boolean tells
whether the loop was left by `break`. -/
def relayLoop (sgn : Bool) (g : Globals) : List Nat → List IterEnv → Option (List Event × Bool)
  | _, [] => some ([], false)
  | buffer, e :: es =>
    match relayIter sgn g buffer e with
    | none => none
    | some (ev, true, _) => some (ev, true)
    | some (ev, false, b) =>
      match relayLoop sgn g b es with
      | none => none
      | some (evs, brk) => some (ev ++ evs, brk)

/-- What the environment returns during upstream setup. -/
structure SetupEnv where
  socketRet : Int
  serverNull : Bool
  connectRet : Int

/-- The function connThread: the actions of a session. -/
def connThread (sgn : Bool) (g : Globals) (buffer : List Nat) (s : SetupEnv)
    (es : List IterEnv) : Option (List Event) :=
  if s.socketRet < 0 then
    some [Event.printf (bytesOf "Destination socket failed\n"),
          Event.write Fd.conn (bytesOf "Destination socket failed\n")]
  else if s.serverNull = true then
    some [Event.printf (bytesOf "Destination server null\n"),
          Event.write Fd.conn (bytesOf "Destination server null\n")]
  else if s.connectRet < 0 then
    some [Event.printf (bytesOf "Connection to destination server failed\n"),
          Event.write Fd.conn (bytesOf "Could not reach destination server\n")]
  else
    match relayLoop sgn g buffer es with
    | none => none
    | some (ev, true) =>
      some ([Event.printf (bytesOf "Connected to destination server\n")] ++ ev
        ++ [Event.close Fd.dest, Event.close Fd.conn,
            Event.printf (bytesOf "Connection terminated\n")])
    | some (ev, false) =>
      some ([Event.printf (bytesOf "Connected to destination server\n")] ++ ev)

/-- No NUL byte in the list. -/
def NulFree (s : List Nat) : Prop := ∀ b ∈ s, b ≠ 0

/-- Reference single-rule replacement, following the words of the specification: scan
left to right; at an occurrence of the pattern emit the replacement and skip the pattern,
otherwise copy one byte.  The counter is the number of pattern bytes still to skip. -/
def refReplace (p r : List Nat) : Nat → List Nat → List Nat
  | _, [] => []
  | skip + 1, _ :: t => refReplace p r skip t
  | 0, c :: t =>
    if p.isPrefixOf (c :: t) then r ++ refReplace p r (p.length - 1) t
    else c :: refReplace p r 0 t

/-- Number of iterations of the `while (1)` loop of replaceString that find an occurrence,
i.e. the number of replacements performed for one rule (the recursion of `replaceLoop`
without the stores). -/
def matchCount (text : List Nat) : Nat → List Nat → Nat
  | 0, _ => 0
  | fuel + 1, tmp =>
    match strstr tmp text with
    | none => 0
    | some k => 1 + matchCount text fuel (tmp.drop (k + text.length))

/-- Reference result for a rule list, following the words of the specification: each rule is
applied, in declared order, to the complete output of the previous one. -/
def refRules (R : List (List Nat × List Nat)) (x : List Nat) : List Nat :=
  R.foldl (fun acc q => refReplace q.1 q.2 0 acc) x

/-- Number of occurrences of `tag` at the start of a line of `block`; the boolean tells
whether the current position is the start of a line. -/
def countLineStarts (tag : List Nat) : Bool → List Nat → Nat
  | _, [] => 0
  | atStart, c :: t =>
    (if atStart && tag.isPrefixOf (c :: t) then 1 else 0) + countLineStarts tag (c == 10) t

/-- Rendering of one byte in auto mode, following the words of the specification. -/
def escapeByte (b : Nat) : List Nat :=
  if b = 92 then [92, 92]
  else if b = 9 then [92, 116]
  else if b = 10 then [92, 110]
  else if b = 13 then [92, 114]
  else if 32 ≤ b ∧ b ≤ 127 then [b]
  else [92, hexDigit (b / 16), hexDigit (b % 16)]

/-- Text of consecutive rows of a hex dump numbered from `k`, following the words of the
specification: each row is the direction tag, the offset 16*k as eight uppercase hexadecimal
digits, two spaces, the row body and a newline. -/
def hexRows (out : Int) : Nat → List (List Nat) → List Nat
  | _, [] => []
  | k, b :: bs =>
    arrow out ++ hexFixed 8 (16 * k) ++ [32, 32] ++ b ++ [10] ++ hexRows out (k + 1) bs

/-- Capacity of the array `temp` declared in the strip branch of formatString,
`char temp[sizeof(globals.buffer)]`. -/
def stripTempCapacity : Nat := BUFSZ

/-- Number of cells of `temp` stored by `strcpy(temp, input)` in the strip branch of
formatString: the bytes of the string and the terminating NUL, indices 0 to strlen(input). -/
def stripTempWritten (input : List Nat) : Nat := strlen input + 1

/-- Number denoted by a string of uppercase hexadecimal digits. -/
def hexValue (ds : List Nat) : Nat :=
  ds.foldl (fun acc d => 16 * acc + (if d ≤ 57 then d - 48 else d - 55)) 0

theorem cstr_of_nulFree {s : List Nat} (h : NulFree s) : cstr s = s := by
  unfold cstr
  rw [List.takeWhile_eq_self_iff]
  intro b hb
  simpa using h b hb

theorem cstr_nulFree (s : List Nat) : NulFree (cstr s) := by
  intro b hb
  have := List.mem_takeWhile_imp hb
  simpa using this

theorem cstr_idem (s : List Nat) : cstr (cstr s) = cstr s := cstr_of_nulFree (cstr_nulFree s)

theorem strlen_of_nulFree {s : List Nat} (h : NulFree s) : strlen s = s.length := by
  unfold strlen; rw [cstr_of_nulFree h]

theorem nulFree_append {a b : List Nat} : NulFree (a ++ b) ↔ NulFree a ∧ NulFree b := by
  unfold NulFree
  constructor
  · intro h; exact ⟨fun x hx => h x (List.mem_append_left _ hx), fun x hx => h x (List.mem_append_right _ hx)⟩
  · rintro ⟨h1, h2⟩ x hx
    rcases List.mem_append.1 hx with h | h
    · exact h1 x h
    · exact h2 x h

theorem refReplace_skip (p r : List Nat) (s : Nat) (t : List Nat) :
    refReplace p r s t = refReplace p r 0 (t.drop s) := by
  induction s generalizing t with
  | zero => simp
  | succ s ih =>
    cases t with
    | nil => simp [refReplace]
    | cons c t => simp [refReplace, ih]

theorem strstr_none_refReplace (p r : List Nat) (x : List Nat) (h : strstr x p = none) :
    refReplace p r 0 x = x := by
  induction x with
  | nil => simp [refReplace]
  | cons c t ih =>
    unfold strstr at h
    split at h
    · simp at h
    · rename_i hpre
      simp at h
      simp [refReplace, hpre, ih h]

theorem strstr_some_refReplace (p r : List Nat) (hp : p ≠ []) (x : List Nat) (k : Nat)
    (h : strstr x p = some k) :
    refReplace p r 0 x = x.take k ++ r ++ refReplace p r 0 (x.drop (k + p.length)) := by
  induction x generalizing k with
  | nil =>
    unfold strstr at h
    cases p with
    | nil => exact absurd rfl hp
    | cons a q => simp at h
  | cons c t ih =>
    unfold strstr at h
    split at h
    · rename_i hpre
      simp at h
      subst h
      have hlen : 0 < p.length := List.length_pos.2 hp
      simp only [refReplace, hpre, if_true, List.take_zero, List.nil_append, Nat.zero_add]
      rw [refReplace_skip]
      obtain ⟨n, hn⟩ : ∃ n, p.length = n + 1 := ⟨p.length - 1, by omega⟩
      simp [hn]
    · rename_i hpre
      simp at h
      obtain ⟨k', hk', rfl⟩ := h
      have := ih k' hk'
      simp only [refReplace, hpre]
      simp [this, Nat.add_right_comm]

theorem strstr_some_bound (p : List Nat) (x : List Nat) (k : Nat) (h : strstr x p = some k) :
    k + p.length ≤ x.length := by
  induction x generalizing k with
  | nil =>
    unfold strstr at h
    cases p with
    | nil => simp at h; subst h; simp
    | cons a q => simp at h
  | cons c t ih =>
    unfold strstr at h
    split at h
    · rename_i hpre
      simp at h
      subst h
      have := (List.isPrefixOf_iff_prefix.1 hpre).length_le
      simpa using this
    · simp at h
      obtain ⟨k', hk', rfl⟩ := h
      have := ih k' hk'
      simp; omega

/-- The scan of one rule with a non-empty pattern never runs out of fuel above the length of
the string: it ends with the reference result when that result and its NUL fit the 1024
cells of `buf`, and with a store outside `buf` otherwise. -/
theorem replaceLoop_eq (p r : List Nat) (hp : p ≠ []) (fuel : Nat) (tmp buf : List Nat)
    (hf : tmp.length < fuel) :
    replaceLoop p r fuel tmp buf
      = if (buf ++ refReplace p r 0 tmp).length < BUFSZ
          then Scan.done (buf ++ refReplace p r 0 tmp) else Scan.overflow := by
  induction fuel generalizing tmp buf with
  | zero => omega
  | succ fuel ih =>
    unfold replaceLoop
    cases hs : strstr tmp p with
    | none =>
      simp only [strstr_none_refReplace p r tmp hs, List.length_append]
      by_cases h : buf.length + tmp.length + 1 ≤ BUFSZ
      · rw [if_pos h, if_pos (by omega)]
      · rw [if_neg h, if_neg (by omega)]
    | some k =>
      simp only
      have hb := strstr_some_bound p tmp k hs
      have hlen : 0 < p.length := List.length_pos.2 hp
      have hk : (tmp.take k).length = k := by simp; omega
      have hd : (tmp.drop (k + p.length)).length < fuel := by simp; omega
      have hih := ih (tmp.drop (k + p.length)) (buf ++ tmp.take k ++ r) hd
      rw [strstr_some_refReplace p r hp tmp k hs]
      have hassoc : buf ++ (tmp.take k ++ r ++ refReplace p r 0 (tmp.drop (k + p.length)))
          = buf ++ tmp.take k ++ r ++ refReplace p r 0 (tmp.drop (k + p.length)) := by
        simp only [List.append_assoc]
      rw [hassoc]
      by_cases hc : buf.length + k + r.length ≤ BUFSZ
      · rw [if_pos hc, hih]
      · rw [if_neg hc, if_neg]
        simp only [List.length_append, hk]
        omega

theorem refReplace_nulFree (p r : List Nat) (hr : NulFree r) (s : Nat) (x : List Nat)
    (hx : NulFree x) : NulFree (refReplace p r s x) := by
  induction x generalizing s with
  | nil => cases s <;> simp [refReplace, NulFree]
  | cons c t ih =>
    have ht : NulFree t := fun b hb => hx b (List.mem_cons_of_mem _ hb)
    have hc : c ≠ 0 := hx c (List.mem_cons_self _ _)
    cases s with
    | succ s => simpa [refReplace] using ih s ht
    | zero =>
      simp only [refReplace]
      split
      · exact nulFree_append.2 ⟨hr, ih _ ht⟩
      · intro b hb
        rcases List.mem_cons.1 hb with h | h
        · exact h ▸ hc
        · exact ih 0 ht b h

theorem refRules_cons (q : List Nat × List Nat) (R : List (List Nat × List Nat))
    (x : List Nat) : refRules (q :: R) x = refRules R (refReplace q.1 q.2 0 x) := rfl

theorem replaceRules_ref (R : List (List Nat × List Nat)) (x : List Nat) (hx : NulFree x)
    (hR : ∀ q ∈ R, q.1 ≠ [] ∧ NulFree q.1 ∧ NulFree q.2)
    (hfit : ∀ i, i < R.length → (refRules (R.take (i + 1)) x).length < BUFSZ) :
    replaceRules R x = some (refRules R x) := by
  induction R generalizing x with
  | nil => simp [replaceRules, refRules]
  | cons q R ih =>
    obtain ⟨p, r⟩ := q
    obtain ⟨hp, hpn, hrn⟩ := hR (p, r) (List.mem_cons_self _ _)
    have hlen : strlen p ≠ 0 := by
      rw [strlen_of_nulFree hpn]
      exact fun h => hp (List.length_eq_zero.1 h)
    have h0 : (refReplace p r 0 x).length < BUFSZ := by
      have := hfit 0 (by simp)
      simpa [refRules] using this
    have hy : NulFree (refReplace p r 0 x) := refReplace_nulFree p r hrn 0 x hx
    unfold replaceRules
    rw [if_neg hlen, cstr_of_nulFree hpn, cstr_of_nulFree hrn,
      replaceLoop_eq p r hp _ x [] (Nat.lt_succ_self _)]
    simp only [List.nil_append, if_pos h0]
    rw [cstr_of_nulFree hy, ih _ hy (fun q hq => hR q (List.mem_cons_of_mem _ hq)), refRules_cons]
    intro i hi
    have := hfit (i + 1) (by simpa using hi)
    simpa [refRules_cons] using this

theorem replaceString_single_ref (x p r : List Nat) (hx : NulFree x) (hp : p ≠ [])
    (hpn : NulFree p) (hrn : NulFree r) (hlen : x.length < 4 * BUFSZ)
    (hfit : (refReplace p r 0 x).length < BUFSZ) :
    replaceString [(p, r)] x = some (refReplace p r 0 x) := by
  unfold replaceString
  rw [strlen_of_nulFree hx, if_pos (by omega), cstr_of_nulFree hx,
    replaceRules_ref [(p, r)] x hx]
  · simp [refRules]
  · intro q hq
    simp at hq
    subst hq
    exact ⟨hp, hpn, hrn⟩
  · intro i hi
    have hi0 : i = 0 := by simpa using hi
    subst hi0
    simpa [refRules] using hfit

/-- C2: for a NUL-free chunk and one rule with a non-empty pattern, when the chunk fits
`temp` and the output with its NUL fits `buf`, replaceString returns the reference result of
the leftmost, non-overlapping, left-to-right replacement. -/
theorem replaceString_single_rule (x p r : List Nat) (hx : NulFree x) (hp : p ≠ [])
    (hpn : NulFree p) (hrn : NulFree r) (hlen : x.length < 4 * BUFSZ)
    (hfit : (refReplace p r 0 x).length < BUFSZ) :
    replaceString [(p, r)] x = some (refReplace p r 0 x) :=
  replaceString_single_ref x p r hx hp hpn hrn hlen hfit

/-- Witness for C2: rule (aa, b) applied to aaaa gives bb. -/
theorem replaceString_single_rule_witness :
    replaceString [([97, 97], [98])] [97, 97, 97, 97] = some [98, 98] :=
  (replaceString_single_rule [97, 97, 97, 97] [97, 97] [98] (by simp [NulFree]) (by simp)
    (by simp [NulFree]) (by simp [NulFree]) (by decide) (by decide)).trans (by decide)

theorem replaceRules_empty_pattern (R1 R2 : List (List Nat × List Nat)) (r temp : List Nat) :
    replaceRules (R1 ++ ([], r) :: R2) temp = replaceRules R1 temp := by
  induction R1 generalizing temp with
  | nil => simp [replaceRules, strlen, cstr]
  | cons q R1 ih =>
    obtain ⟨p, w⟩ := q
    simp only [List.cons_append, replaceRules]
    split
    · rfl
    · cases replaceLoop (cstr p) (cstr w) (temp.length + 1) temp [] with
      | done buf => exact ih _
      | overflow => rfl
      | fuel => rfl

/-- C4: a rule with an empty pattern ends rule application: the rule list
R1 ++ [("", r)] ++ R2 gives the same result as R1 alone, for every input. -/
theorem replaceString_empty_pattern_stops (x r : List Nat) (R1 R2 : List (List Nat × List Nat)) :
    replaceString (R1 ++ [([], r)] ++ R2) x = replaceString R1 x := by
  unfold replaceString
  rw [List.append_assoc]
  split
  · exact replaceRules_empty_pattern R1 R2 r _
  · rfl

theorem refReplace_length (p r : List Nat) (hp : p ≠ []) (fuel : Nat) (tmp : List Nat)
    (hf : tmp.length < fuel) :
    (refReplace p r 0 tmp).length + matchCount p fuel tmp * p.length
        = tmp.length + matchCount p fuel tmp * r.length
      ∧ matchCount p fuel tmp * p.length ≤ tmp.length := by
  induction fuel generalizing tmp with
  | zero => omega
  | succ fuel ih =>
    unfold matchCount
    cases hs : strstr tmp p with
    | none => simp [strstr_none_refReplace p r tmp hs]
    | some k =>
      simp only
      have hb := strstr_some_bound p tmp k hs
      have hlen : 0 < p.length := List.length_pos.2 hp
      have hd : (tmp.drop (k + p.length)).length = tmp.length - (k + p.length) := by simp
      obtain ⟨h1, h2⟩ := ih (tmp.drop (k + p.length)) (by rw [hd]; omega)
      have hk : (tmp.take k).length = k := by simp; omega
      rw [strstr_some_refReplace p r hp tmp k hs]
      simp only [List.length_append, hk]
      rw [hd] at h1 h2
      rw [Nat.add_mul, Nat.add_mul]
      constructor <;> omega

theorem length_flatten_replicate (r : List Nat) (n : Nat) :
    ((List.replicate n r).flatten).length = n * r.length := by
  induction n with
  | zero => simp
  | succ n ih => rw [List.replicate_succ, List.flatten_cons, List.length_append, ih]; ring

theorem refReplace_replicate (a : Nat) (r : List Nat) (n : Nat) :
    refReplace [a] r 0 (List.replicate n a) = (List.replicate n r).flatten := by
  induction n with
  | zero => simp [refReplace]
  | succ n ih => simp [List.replicate_succ, refReplace, List.isPrefixOf, ih]

theorem nulFree_replicate (n a : Nat) (ha : a ≠ 0) : NulFree (List.replicate n a) := by
  intro b hb
  rw [List.eq_of_mem_replicate hb]
  exact ha

theorem replaceRules_nonexpanding (R : List (List Nat × List Nat)) (temp : List Nat)
    (ht : temp.length < BUFSZ) (hR : ∀ q ∈ R, strlen q.2 ≤ strlen q.1) :
    ∃ o, replaceRules R temp = some o ∧ o.length ≤ temp.length := by
  induction R generalizing temp with
  | nil => exact ⟨temp, rfl, le_refl _⟩
  | cons q R ih =>
    obtain ⟨p, w⟩ := q
    unfold replaceRules
    split
    · exact ⟨temp, rfl, le_refl _⟩
    · rename_i hlen
      have hp : cstr p ≠ [] := fun h => hlen (by unfold strlen; rw [h]; rfl)
      obtain ⟨h1, _⟩ := refReplace_length (cstr p) (cstr w) hp (temp.length + 1) temp
        (Nat.lt_succ_self _)
      have hle : strlen w ≤ strlen p := hR (p, w) (List.mem_cons_self _ _)
      unfold strlen at hle
      have hyl : (refReplace (cstr p) (cstr w) 0 temp).length ≤ temp.length := by
        have := Nat.mul_le_mul_left (matchCount (cstr p) (temp.length + 1) temp) hle
        omega
      rw [replaceLoop_eq (cstr p) (cstr w) hp _ temp [] (Nat.lt_succ_self _)]
      simp only [List.nil_append, if_pos (lt_of_le_of_lt hyl ht)]
      have hcl : (cstr (refReplace (cstr p) (cstr w) 0 temp)).length
          ≤ (refReplace (cstr p) (cstr w) 0 temp).length := by
        unfold cstr
        exact (List.takeWhile_sublist _).length_le
      obtain ⟨o, ho, hol⟩ := ih (cstr (refReplace (cstr p) (cstr w) 0 temp))
        (by omega) (fun q hq => hR q (List.mem_cons_of_mem _ hq))
      exact ⟨o, ho, by omega⟩

/-- The substitution engine has a result, no longer than the chunk, when the chunk is shorter
than 1024 bytes and no rule has a replacement longer than its pattern. -/
theorem replaceString_defined (x : List Nat) (R : List (List Nat × List Nat))
    (hx : strlen x < BUFSZ) (hR : ∀ q ∈ R, strlen q.2 ≤ strlen q.1) :
    ∃ y, replaceString R x = some y ∧ y.length ≤ strlen x := by
  unfold replaceString
  rw [if_pos (by unfold BUFSZ at hx ⊢; omega)]
  exact replaceRules_nonexpanding R (cstr x) hx hR

/-- C16: for the chunk of 600 bytes a, within one read, and the single rule (a, aa), within
the configured limits, the result has 1200 bytes, below 4 * 1024, but the scan builds it in
the 1024 cells of `buf` and stores past their end: replaceString has no defined result. -/
theorem replaceString_buf_overflow :
    (List.replicate 600 97).length ≤ BUFSZ
    ∧ (refReplace [97] [97, 97] 0 (List.replicate 600 97)).length = 1200
    ∧ 1200 ≤ 4 * BUFSZ
    ∧ replaceLoop [97] [97, 97] 601 (List.replicate 600 97) [] = Scan.overflow
    ∧ replaceString [([97], [97, 97])] (List.replicate 600 97) = none := by
  have hx : NulFree (List.replicate 600 97) := nulFree_replicate 600 97 (by decide)
  have hl : (List.replicate 600 97).length = 600 := List.length_replicate _ _
  have href : (refReplace [97] [97, 97] 0 (List.replicate 600 97)).length = 1200 := by
    rw [refReplace_replicate, length_flatten_replicate]; rfl
  have hloop : replaceLoop [97] [97, 97] ((List.replicate 600 97).length + 1)
      (List.replicate 600 97) [] = Scan.overflow := by
    rw [replaceLoop_eq [97] [97, 97] (by simp) _ _ [] (Nat.lt_succ_self _), List.nil_append,
      href, if_neg (by decide)]
  refine ⟨by rw [hl]; decide, href, by decide, by rw [hl] at hloop; exact hloop, ?_⟩
  unfold replaceString
  rw [strlen_of_nulFree hx, hl, if_pos (by decide), cstr_of_nulFree hx]
  have h1 : strlen [97] ≠ 0 := by decide
  have h2 : cstr [97] = [97] := by decide
  have h3 : cstr [97, 97] = [97, 97] := by decide
  unfold replaceRules
  rw [if_neg h1, h2, h3, hloop]

/-! ## Formatter: basic facts -/

theorem arrow_length (out : Int) : (arrow out).length = 4 := by
  unfold arrow; split <;> rfl

theorem arrow_mem (out : Int) : ∀ c ∈ arrow out, c ≠ 10 ∧ c ≠ 0 := by
  unfold arrow; split <;> simp

theorem hexDigit_ge (d : Nat) : 48 ≤ hexDigit d := by
  unfold hexDigit; split <;> omega

theorem hexFixed_length (w n : Nat) : (hexFixed w n).length = w := by
  induction w generalizing n with
  | zero => rfl
  | succ w ih => simp [hexFixed, ih]

theorem mem_hexFixed (w n : Nat) : ∀ d ∈ hexFixed w n, 48 ≤ d := by
  induction w generalizing n with
  | zero => simp [hexFixed]
  | succ w ih =>
    intro d hd
    simp only [hexFixed, List.mem_append, List.mem_singleton] at hd
    rcases hd with h | h
    · exact ih _ d h
    · rw [h]; exact hexDigit_ge _

theorem mem_fmtX (w : Nat) (v : Int) : ∀ d ∈ fmtX w v, 48 ≤ d := by
  intro d hd
  unfold fmtX at hd
  exact mem_hexFixed _ _ d (List.mem_of_mem_drop hd)

theorem fmtX_length_ge (w : Nat) (v : Int) (hw : w ≤ 8) : w ≤ (fmtX w v).length := by
  unfold fmtX
  simp only [List.length_drop, hexFixed_length]
  omega

theorem fmtX_eight (n : Nat) (hn : n < 4294967296) : fmtX 8 (n : Int) = hexFixed 8 n := by
  unfold fmtX
  have : ((n : Int) % 4294967296).toNat = n := by omega
  simp [this]

theorem getD_ge_of_mem (l : List Nat) (i : Nat) (h : i < l.length) (hl : ∀ d ∈ l, 48 ≤ d) :
    48 ≤ l.getD i 0 := by
  rw [List.getD_eq_getElem _ _ h]
  exact hl _ (List.getElem_mem _)

theorem chex_ge (v : Int) (i : Nat) (hi : i < 2) : 48 ≤ (fmtX 2 v).getD i 0 :=
  getD_ge_of_mem _ _ (by have := fmtX_length_ge 2 v (by decide); omega) (mem_fmtX 2 v)

theorem charToInt_zero (sgn : Bool) : charToInt sgn 0 = 0 := by
  unfold charToInt; simp

theorem charToInt_small (sgn : Bool) (b : Nat) (h : b < 128) : charToInt sgn b = (b : Int) := by
  unfold charToInt
  have : ¬ 128 ≤ b := by omega
  simp [this]

theorem charToInt_unsigned (b : Nat) : charToInt false b = (b : Int) := by
  unfold charToInt; simp

theorem charToInt_ten (sgn : Bool) (b : Nat) (h : b = 10) : charToInt sgn b = 10 := by
  subst h; exact charToInt_small sgn 10 (by decide)

theorem isprint_byte (sgn : Bool) (b : Nat) (hb : b < 256) :
    isprint (charToInt sgn b) = decide (32 ≤ b ∧ b ≤ 126) := by
  unfold isprint charToInt
  by_cases h : 128 ≤ b
  · cases sgn
    · simp only [Bool.false_and, Bool.false_eq_true, if_false]
      rw [Bool.eq_iff_iff]; simp
    · simp only [Bool.true_and, decide_eq_true_eq, h, if_true]
      rw [Bool.eq_iff_iff]; simp; omega
  · have hd : decide (128 ≤ b) = false := by simp; omega
    rw [hd, Bool.and_false]
    simp only [Bool.false_eq_true, if_false]
    rw [Bool.eq_iff_iff]; simp

theorem emod_cast_eq_zero (i N : Nat) : (((i : Int) + 1) % (N : Int) = 0) ↔ ((i + 1) % N = 0) := by
  have : ((i : Int) + 1) % (N : Int) = (((i + 1) % N : Nat) : Int) := by push_cast; rfl
  rw [this]
  exact Int.natCast_eq_zero

/-! ## Formatter: auto mode -/

/-- Shape of one iteration of the auto loop: an escape without newline or NUL, then the line
break when the chunk width is reached. -/
theorem autoStep_shape (sgn : Bool) (N : Nat) (input : List Nat) (out : Int) (i : Nat) :
    ∃ esc : List Nat, (∀ c ∈ esc, c ≠ 10 ∧ c ≠ 0) ∧ esc.length ≤ 3 ∧
      ∀ temp, autoStep sgn (N : Int) input out temp i
        = temp ++ esc ++ (if (i + 1) % N = 0 then [10] ++ arrow out else []) := by
  have htake : ([10] ++ arrow out).take 5 = [10] ++ arrow out :=
    List.take_of_length_le (by simp [arrow_length])
  have key : ∀ esc : List Nat, ∀ temp : List Nat,
      (if ((i : Int) + 1) % (N : Int) = 0 then temp ++ esc ++ (([10] ++ arrow out).take 5)
        else temp ++ esc)
      = temp ++ esc ++ (if (i + 1) % N = 0 then [10] ++ arrow out else []) := by
    intro esc temp
    rw [htake]
    by_cases h : (i + 1) % N = 0
    · rw [if_pos ((emod_cast_eq_zero i N).2 h), if_pos h]
    · rw [if_neg (fun h' => h ((emod_cast_eq_zero i N).1 h')), if_neg h]; simp
  unfold autoStep
  simp only
  by_cases h1 : charToInt sgn (input.getD i 0) = 92
  · refine ⟨[92, 92], by simp, by simp, fun temp => ?_⟩
    rw [if_pos h1]; exact key _ _
  by_cases h2 : charToInt sgn (input.getD i 0) = 9
  · refine ⟨[92, 116], by simp, by simp, fun temp => ?_⟩
    rw [if_neg h1, if_pos h2]; exact key _ _
  by_cases h3 : charToInt sgn (input.getD i 0) = 10
  · refine ⟨[92, 110], by simp, by simp, fun temp => ?_⟩
    rw [if_neg h1, if_neg h2, if_pos h3]; exact key _ _
  by_cases h4 : charToInt sgn (input.getD i 0) = 13
  · refine ⟨[92, 114], by simp, by simp, fun temp => ?_⟩
    rw [if_neg h1, if_neg h2, if_neg h3, if_pos h4]; exact key _ _
  by_cases h5 : 32 ≤ charToInt sgn (input.getD i 0) ∧ charToInt sgn (input.getD i 0) ≤ 127
  · refine ⟨[input.getD i 0], ?_, by simp, fun temp => ?_⟩
    · intro c hc
      simp only [List.mem_singleton] at hc
      subst hc
      constructor
      · intro h; exact h3 (charToInt_ten sgn _ h)
      · intro h; rw [h, charToInt_zero] at h5; omega
    · rw [if_neg h1, if_neg h2, if_neg h3, if_neg h4, if_pos h5]; exact key _ _
  · refine ⟨([92] ++ fmtX 2 (charToInt sgn (input.getD i 0))).take 3, ?_, ?_, fun temp => ?_⟩
    · intro c hc
      have hc' := List.mem_of_mem_take hc
      simp only [List.singleton_append, List.mem_cons] at hc'
      rcases hc' with h | h
      · subst h; simp
      · have := mem_fmtX 2 _ c h
        constructor <;> omega
    · simp [List.length_take]
    · rw [if_neg h1, if_neg h2, if_neg h3, if_neg h4, if_neg h5]; exact key _ _

theorem autoLoop_shape (sgn : Bool) (N : Nat) (input : List Nat) (out : Int) (n i : Nat) :
    ∀ temp, autoLoop sgn (N : Int) input out n i temp
      = temp ++ autoLoop sgn (N : Int) input out n i [] := by
  induction n generalizing i with
  | zero => intro temp; simp [autoLoop]
  | succ n ih =>
    intro temp
    obtain ⟨esc, _, _, hstep⟩ := autoStep_shape sgn N input out i
    simp only [autoLoop]
    rw [ih (i + 1) (autoStep sgn (N : Int) input out temp i),
      ih (i + 1) (autoStep sgn (N : Int) input out [] i), hstep temp, hstep []]
    simp [List.append_assoc]

theorem autoLoop_succ (sgn : Bool) (N : Nat) (input : List Nat) (out : Int) (n i : Nat) :
    autoLoop sgn (N : Int) input out (n + 1) i []
      = autoStep sgn (N : Int) input out [] i ++ autoLoop sgn (N : Int) input out n (i + 1) [] := by
  simp only [autoLoop]
  exact autoLoop_shape sgn N input out n (i + 1) _

theorem autoLoop_nulFree (sgn : Bool) (N : Nat) (input : List Nat) (out : Int) (n i : Nat) :
    NulFree (autoLoop sgn (N : Int) input out n i []) := by
  induction n generalizing i with
  | zero => simp [autoLoop, NulFree]
  | succ n ih =>
    rw [autoLoop_succ]
    obtain ⟨esc, hesc, _, hstep⟩ := autoStep_shape sgn N input out i
    rw [hstep []]
    refine nulFree_append.2 ⟨nulFree_append.2 ⟨nulFree_append.2 ⟨by simp [NulFree], ?_⟩, ?_⟩, ih _⟩
    · exact fun c hc => (hesc c hc).2
    · split
      · refine nulFree_append.2 ⟨by simp [NulFree], fun c hc => (arrow_mem out c hc).2⟩
      · simp [NulFree]

theorem autoLoop_length (sgn : Bool) (N : Nat) (input : List Nat) (out : Int) (n i : Nat) :
    (autoLoop sgn (N : Int) input out n i []).length ≤ 8 * n := by
  induction n generalizing i with
  | zero => simp [autoLoop]
  | succ n ih =>
    rw [autoLoop_succ]
    obtain ⟨esc, _, hlen, hstep⟩ := autoStep_shape sgn N input out i
    rw [hstep []]
    have := ih (i + 1)
    have ha := arrow_length out
    simp only [List.length_append, List.nil_append]
    split <;> simp [ha] <;> omega

theorem cstr_append_newline (temp : List Nat) (h : NulFree temp) :
    cstr (temp ++ [10]) = temp ++ [10] :=
  cstr_of_nulFree (nulFree_append.2 ⟨h, by simp [NulFree]⟩)

theorem formatString_auto_eq (sgn : Bool) (g : Globals) (N : Nat) (input : List Nat) (out : Int)
    (hraw : g.rawFlag = 0) (hstrip : g.stripFlag = 0) (hhex : g.hexFlag = 0)
    (hauto : g.autoValue = (N : Int)) (hN : 1 ≤ N) :
    formatString sgn g input out
      = arrow out ++ autoLoop sgn (N : Int) input out (strlen input) 0 [] ++ [10] := by
  unfold formatString
  have hpos : g.autoValue > 0 := by rw [hauto]; exact_mod_cast hN
  simp only [hraw, hstrip, hhex, ne_eq, not_true_eq_false, if_false, if_pos hpos]
  rw [hauto, autoLoop_shape sgn N input out (strlen input) 0 (arrow out)]
  exact cstr_append_newline _
    (nulFree_append.2 ⟨fun c hc => (arrow_mem out c hc).2, autoLoop_nulFree sgn N input out _ _⟩)

theorem countLineStarts_skip (tag xs rest : List Nat) (h : ∀ c ∈ xs, c ≠ 10) :
    countLineStarts tag false (xs ++ rest) = countLineStarts tag false rest := by
  induction xs with
  | nil => rfl
  | cons c t ih =>
    have hc : c ≠ 10 := h c (List.mem_cons_self _ _)
    have ht : ∀ d ∈ t, d ≠ 10 := fun d hd => h d (List.mem_cons_of_mem _ hd)
    have hcb : (c == 10) = false := by simp [hc]
    simp only [List.cons_append, countLineStarts, hcb]
    simpa using ih ht

theorem countLineStarts_arrow (out : Int) (rest : List Nat) :
    countLineStarts (arrow out) true (arrow out ++ rest)
      = 1 + countLineStarts (arrow out) false rest := by
  unfold arrow
  split <;> simp [countLineStarts, List.isPrefixOf]

theorem countLineStarts_newline_arrow (out : Int) (rest : List Nat) :
    countLineStarts (arrow out) false ([10] ++ arrow out ++ rest)
      = 1 + countLineStarts (arrow out) false rest := by
  have := countLineStarts_arrow out rest
  simp only [List.singleton_append, List.cons_append, countLineStarts]
  simpa using this

theorem succ_div_if (i N : Nat) :
    (i + 1) / N = i / N + (if (i + 1) % N = 0 then 1 else 0) := by
  rw [Nat.succ_div]
  by_cases h : N ∣ i + 1
  · rw [if_pos h, if_pos (Nat.mod_eq_zero_of_dvd h)]
  · rw [if_neg h, if_neg (fun h' => h (Nat.dvd_of_mod_eq_zero h'))]

theorem countLineStarts_autoLoop (sgn : Bool) (N : Nat) (input : List Nat) (out : Int)
    (n i : Nat) (rest : List Nat) :
    countLineStarts (arrow out) false (autoLoop sgn (N : Int) input out n i [] ++ rest) + i / N
      = (i + n) / N + countLineStarts (arrow out) false rest := by
  induction n generalizing i with
  | zero => simp [autoLoop]; omega
  | succ n ih =>
    rw [autoLoop_succ]
    obtain ⟨esc, hesc, _, hstep⟩ := autoStep_shape sgn N input out i
    rw [hstep []]
    simp only [List.nil_append, List.append_assoc]
    rw [countLineStarts_skip _ esc _ (fun c hc => (hesc c hc).1)]
    have hih := ih (i + 1)
    have hdiv := succ_div_if i N
    rw [show i + (n + 1) = i + 1 + n by omega]
    by_cases h : (i + 1) % N = 0
    · rw [if_pos h] at hdiv ⊢
      rw [countLineStarts_newline_arrow]
      omega
    · rw [if_neg h] at hdiv ⊢
      simp only [List.nil_append]
      omega

/-- C6, counterexample: in auto(4) mode a payload of 4 bytes gives 2 labeled lines, while
the ceiling of 4/4 is 1. -/
theorem formatString_auto_line_count_ceil_fails :
    countLineStarts (arrow 1) true (formatString true ⟨0, 0, 0, 4, []⟩ [65, 66, 67, 68] 1) = 2
    ∧ (4 + 4 - 1) / 4 = 1 := by
  decide

/-- C6, amended: in auto(N) mode with N at least 1 the block for a payload of M bytes has
exactly floor(M/N) + 1 labeled lines, where M is the length of the payload string. -/
theorem formatString_auto_line_count (sgn : Bool) (g : Globals) (N : Nat) (input : List Nat)
    (out : Int) (hraw : g.rawFlag = 0) (hstrip : g.stripFlag = 0) (hhex : g.hexFlag = 0)
    (hauto : g.autoValue = (N : Int)) (hN : 1 ≤ N) :
    countLineStarts (arrow out) true (formatString sgn g input out) = strlen input / N + 1 := by
  rw [formatString_auto_eq sgn g N input out hraw hstrip hhex hauto hN, List.append_assoc,
    countLineStarts_arrow]
  have := countLineStarts_autoLoop sgn N input out (strlen input) 0 [10]
  simp only [Nat.zero_div, Nat.add_zero, Nat.zero_add] at this
  rw [this]
  simp [countLineStarts]
  omega

/-- Witness for C6 amended: auto(4), payload ABCD, outbound. -/
theorem formatString_auto_line_count_witness :
    countLineStarts (arrow 1) true (formatString true ⟨0, 0, 0, 4, []⟩ [65, 66, 67, 68] 1)
      = strlen [65, 66, 67, 68] / 4 + 1 :=
  formatString_auto_line_count true ⟨0, 0, 0, 4, []⟩ 4 [65, 66, 67, 68] 1 rfl rfl rfl rfl
    (by decide)

/-- C8, counterexample: in auto(4) mode the outbound chunk A B TAB C D is not rendered as
the line AB\tCD followed by an empty labeled line. -/
theorem formatString_auto_S5_differs :
    formatString true ⟨0, 0, 0, 4, []⟩ [65, 66, 9, 67, 68] 1
      ≠ [45, 45, 62, 32, 65, 66, 92, 116, 67, 68, 10, 45, 45, 62, 32, 10] := by
  decide

/-- C8, amended: in auto(4) mode the outbound chunk A B TAB C D is rendered as the line
AB\tC, then a second labeled line holding D, each ended by a newline. -/
theorem formatString_auto_S5 (sgn : Bool) :
    formatString sgn ⟨0, 0, 0, 4, []⟩ [65, 66, 9, 67, 68] 1
      = [45, 45, 62, 32, 65, 66, 92, 116, 67, 10, 45, 45, 62, 32, 68, 10] := by
  cases sgn <;> decide

set_option maxRecDepth 100000 in
theorem fmtX_two_byte :
    ∀ b : Nat, b < 256 → fmtX 2 ((b : Nat) : Int) = [hexDigit (b / 16), hexDigit (b % 16)] := by
  decide

/-- In auto mode a byte below 128, and every byte when plain char is unsigned, is rendered
as the specification says. -/
theorem autoStep_escapeByte (sgn : Bool) (N : Nat) (input : List Nat) (out : Int) (i : Nat)
    (hb : input.getD i 0 < 256) (hs : sgn = true → input.getD i 0 < 128) :
    autoStep sgn (N : Int) input out [] i
      = escapeByte (input.getD i 0) ++ (if (i + 1) % N = 0 then [10] ++ arrow out else []) := by
  have hc : charToInt sgn (input.getD i 0) = ((input.getD i 0 : Nat) : Int) := by
    cases sgn
    · exact charToInt_unsigned _
    · exact charToInt_small _ _ (hs rfl)
  have htake : ([10] ++ arrow out).take 5 = [10] ++ arrow out :=
    List.take_of_length_le (by simp [arrow_length])
  unfold autoStep escapeByte
  simp only [hc, htake, emod_cast_eq_zero, fmtX_two_byte _ hb, List.nil_append]
  have e1 : ((input.getD i 0 : Nat) : Int) = 92 ↔ input.getD i 0 = 92 := by omega
  have e2 : ((input.getD i 0 : Nat) : Int) = 9 ↔ input.getD i 0 = 9 := by omega
  have e3 : ((input.getD i 0 : Nat) : Int) = 10 ↔ input.getD i 0 = 10 := by omega
  have e4 : ((input.getD i 0 : Nat) : Int) = 13 ↔ input.getD i 0 = 13 := by omega
  have e5 : (32 ≤ ((input.getD i 0 : Nat) : Int) ∧ ((input.getD i 0 : Nat) : Int) ≤ 127)
      ↔ (32 ≤ input.getD i 0 ∧ input.getD i 0 ≤ 127) := by omega
  simp only [e1, e2, e3, e4, e5]
  split_ifs <;> simp [List.append_assoc]

/-- C7: with signed plain char, auto mode renders the byte 0x80 as backslash F F, whereas the
two-digit hexadecimal value of the byte is 80. -/
theorem formatString_auto_high_byte :
    formatString true ⟨0, 0, 0, 4, []⟩ [128] 1 = [45, 45, 62, 32, 92, 70, 70, 10]
    ∧ escapeByte 128 = [92, 56, 48]
    ∧ formatString false ⟨0, 0, 0, 4, []⟩ [128] 1 = [45, 45, 62, 32, 92, 56, 48, 10] := by
  decide

/-! ## Formatter: hex mode -/

theorem hexFixed_mod (w n : Nat) : hexFixed w (n % 16 ^ w) = hexFixed w n := by
  induction w generalizing n with
  | zero => rfl
  | succ w ih =>
    simp only [hexFixed]
    rw [pow_succ, Nat.mod_mul_left_div_self, Nat.mod_mul_left_mod, ih]

theorem fmtX_eight_all (n : Nat) : fmtX 8 (n : Int) = hexFixed 8 n := by
  unfold fmtX
  have h1 : ((n : Int) % 4294967296).toNat = n % 16 ^ 8 := by
    have : (16 : Nat) ^ 8 = 4294967296 := by norm_num
    omega
  simp only [h1, hexFixed_mod, Nat.sub_self, Nat.min_zero, List.drop_zero]

theorem isprint_char_ne (sgn : Bool) (c : Nat) (h : isprint (charToInt sgn c) = true) :
    c ≠ 10 ∧ c ≠ 0 := by
  constructor
  · intro hc
    rw [charToInt_ten sgn c hc] at h
    exact absurd h (by decide)
  · intro hc
    rw [hc, charToInt_zero] at h
    exact absurd h (by decide)

theorem asciiColumn_mem (sgn : Bool) (s : List Nat) :
    ∀ c ∈ s.map (fun c => if isprint (charToInt sgn c) then c else 46), c ≠ 10 ∧ c ≠ 0 := by
  intro c hc
  obtain ⟨d, _, hd⟩ := List.mem_map.1 hc
  by_cases hp : isprint (charToInt sgn d) = true
  · rw [if_pos hp] at hd
    subst hd
    exact isprint_char_ne sgn d hp
  · rw [if_neg hp] at hd
    subst hd
    decide

/-- Shape of one iteration of the hex loop: cells and ASCII column without newline or NUL,
then, after every 16th byte, the newline and the label of the next row. -/
theorem hexStep_shape (sgn : Bool) (input : List Nat) (out : Int) (i : Nat) :
    ∃ body : List Nat, (∀ c ∈ body, c ≠ 10 ∧ c ≠ 0)
      ∧ body.length ≤ (if (i + 1) % 16 = 0 ∨ i = strlen input - 1 then 23 else 4)
      ∧ ∀ temp, hexStep sgn input out temp i
        = temp ++ body
          ++ (if (i + 1) % 16 = 0 then [10] ++ arrow out ++ hexFixed 8 (i + 1) ++ [32, 32]
              else []) := by
  have hcell : ∀ c ∈ [(fmtX 2 (charToInt sgn (input.getD i 0))).getD 0 0,
      (fmtX 2 (charToInt sgn (input.getD i 0))).getD 1 0, 32], c ≠ 10 ∧ c ≠ 0 := by
    intro c hc
    simp only [List.mem_cons, List.mem_singleton, List.not_mem_nil, or_false] at hc
    have h0 := chex_ge (charToInt sgn (input.getD i 0)) 0 (by decide)
    have h1 := chex_ge (charToInt sgn (input.getD i 0)) 1 (by decide)
    rcases hc with h | h | h <;> subst h <;> constructor <;> omega
  have hx : fmtX 8 ((i : Int) + 1) = hexFixed 8 (i + 1) := by
    have := fmtX_eight_all (i + 1)
    push_cast at this
    exact this
  have hnl : ([10] ++ arrow out ++ fmtX 8 ((i : Int) + 1) ++ [32, 32]).take 15
      = [10] ++ arrow out ++ hexFixed 8 (i + 1) ++ [32, 32] := by
    rw [hx]
    exact List.take_of_length_le (by simp [arrow_length, hexFixed_length])
  unfold hexStep
  simp only [hnl]
  by_cases hA : (i + 1) % 8 = 0 ∧ (i + 1) % 16 ≠ 0
  · refine ⟨[(fmtX 2 (charToInt sgn (input.getD i 0))).getD 0 0,
        (fmtX 2 (charToInt sgn (input.getD i 0))).getD 1 0, 32] ++ [32], ?_, ?_, fun temp => ?_⟩
    · intro c hc
      rcases List.mem_append.1 hc with h | h
      · exact hcell c h
      · simp only [List.mem_singleton] at h; subst h; decide
    · split <;> simp
    · rw [if_pos hA, if_neg hA.2]; simp
  by_cases hB : (i + 1) % 16 = 0 ∨ i = strlen input - 1
  · refine ⟨[(fmtX 2 (charToInt sgn (input.getD i 0))).getD 0 0,
        (fmtX 2 (charToInt sgn (input.getD i 0))).getD 1 0, 32]
        ++ (cstr ([32, 32, 124] ++ (List.range (if (i + 1) % 16 = 0 then 16 else (i + 1) % 16)).map
              (fun k => input.getD (i + k + 1 - (if (i + 1) % 16 = 0 then 16 else (i + 1) % 16)) 0)
              ++ [124])).map (fun c => if isprint (charToInt sgn c) then c else 46),
        ?_, ?_, fun temp => ?_⟩
    · intro c hc
      rcases List.mem_append.1 hc with h | h
      · exact hcell c h
      · exact asciiColumn_mem sgn _ c h
    · rw [if_pos hB]
      have hlen : ∀ s : List Nat, (cstr s).length ≤ s.length := fun s => by
        unfold cstr; exact (List.takeWhile_sublist _).length_le
      have := hlen ([32, 32, 124] ++ (List.range (if (i + 1) % 16 = 0 then 16 else (i + 1) % 16)).map
              (fun k => input.getD (i + k + 1 - (if (i + 1) % 16 = 0 then 16 else (i + 1) % 16)) 0)
              ++ [124])
      have hn : (if (i + 1) % 16 = 0 then 16 else (i + 1) % 16) ≤ 16 := by split <;> omega
      simp only [List.length_append, List.length_map, List.length_range, List.length_cons,
        List.length_nil] at this ⊢
      omega
    · rw [if_neg hA, if_pos hB]
      by_cases h16 : (i + 1) % 16 = 0
      · simp only [if_pos h16, List.append_assoc]
      · simp only [if_neg h16, List.append_assoc, List.append_nil]
  · refine ⟨[(fmtX 2 (charToInt sgn (input.getD i 0))).getD 0 0,
        (fmtX 2 (charToInt sgn (input.getD i 0))).getD 1 0, 32], hcell, ?_, fun temp => ?_⟩
    · split <;> simp
    · have h16 : ¬ (i + 1) % 16 = 0 := fun h => hB (Or.inl h)
      rw [if_neg hA, if_neg hB, if_neg h16]; simp

theorem hexLoop_shape (sgn : Bool) (input : List Nat) (out : Int) (n i : Nat) :
    ∀ temp, hexLoop sgn input out n i temp = temp ++ hexLoop sgn input out n i [] := by
  induction n generalizing i with
  | zero => intro temp; simp [hexLoop]
  | succ n ih =>
    intro temp
    obtain ⟨body, _, _, hstep⟩ := hexStep_shape sgn input out i
    simp only [hexLoop]
    rw [ih (i + 1) (hexStep sgn input out temp i), ih (i + 1) (hexStep sgn input out [] i),
      hstep temp, hstep []]
    simp [List.append_assoc]

theorem hexLoop_succ (sgn : Bool) (input : List Nat) (out : Int) (n i : Nat) :
    hexLoop sgn input out (n + 1) i []
      = hexStep sgn input out [] i ++ hexLoop sgn input out n (i + 1) [] := by
  simp only [hexLoop]
  exact hexLoop_shape sgn input out n (i + 1) _

theorem hexLoop_succ_right (sgn : Bool) (input : List Nat) (out : Int) (n i : Nat) :
    hexLoop sgn input out (n + 1) i []
      = hexLoop sgn input out n i [] ++ hexStep sgn input out [] (i + n) := by
  induction n generalizing i with
  | zero => simp [hexLoop]
  | succ n ih =>
    rw [hexLoop_succ, ih (i + 1), hexLoop_succ sgn input out n i, List.append_assoc,
      show i + 1 + n = i + (n + 1) by omega]

theorem hexRowLabel_mem (out : Int) (k : Nat) :
    ∀ c ∈ arrow out ++ hexFixed 8 k ++ [32, 32], c ≠ 10 ∧ c ≠ 0 := by
  intro c hc
  simp only [List.mem_append, List.mem_cons, List.mem_singleton, List.not_mem_nil, or_false] at hc
  rcases hc with (h | h) | h
  · exact arrow_mem out c h
  · have := mem_hexFixed 8 k c h
    constructor <;> omega
  · rcases h with h | h <;> subst h <;> decide

theorem hexLoop_nulFree (sgn : Bool) (input : List Nat) (out : Int) (n i : Nat) :
    NulFree (hexLoop sgn input out n i []) := by
  induction n generalizing i with
  | zero => simp [hexLoop, NulFree]
  | succ n ih =>
    rw [hexLoop_succ]
    obtain ⟨body, hbody, _, hstep⟩ := hexStep_shape sgn input out i
    rw [hstep []]
    refine nulFree_append.2 ⟨nulFree_append.2 ⟨nulFree_append.2 ⟨by simp [NulFree], ?_⟩, ?_⟩, ih _⟩
    · exact fun c hc => (hbody c hc).2
    · split
      · intro c hc
        rw [List.append_assoc, List.append_assoc, List.singleton_append] at hc
        rcases List.mem_cons.1 hc with h | h
        · subst h; decide
        · exact (hexRowLabel_mem out (i + 1) c (by rw [List.append_assoc]; exact h)).2
      · simp [NulFree]

theorem formatString_hex_eq (sgn : Bool) (g : Globals) (input : List Nat) (out : Int)
    (hraw : g.rawFlag = 0) (hstrip : g.stripFlag = 0) (hhex : g.hexFlag ≠ 0) :
    formatString sgn g input out
      = arrow out ++ hexFixed 8 0 ++ [32, 32] ++ hexLoop sgn input out (strlen input) 0 []
          ++ [10] := by
  unfold formatString
  simp only [hraw, hstrip, ne_eq, not_true_eq_false, if_false, hhex, not_false_eq_true, if_true]
  rw [hexLoop_shape sgn input out (strlen input) 0 _]
  have h0 : hexFixed 8 0 = [48, 48, 48, 48, 48, 48, 48, 48] := by decide
  rw [cstr_append_newline]
  · simp [h0, List.append_assoc]
  · refine nulFree_append.2 ⟨nulFree_append.2 ⟨fun c hc => (arrow_mem out c hc).2, by simp [NulFree]⟩,
      hexLoop_nulFree sgn input out _ _⟩

theorem hexLoop_rows (sgn : Bool) (input : List Nat) (out : Int) (n i : Nat) (cur : List Nat)
    (hcur : ∀ c ∈ cur, c ≠ 10) :
    ∃ bodies : List (List Nat), bodies.length + i / 16 = (i + n) / 16 + 1
      ∧ (∀ b ∈ bodies, ∀ c ∈ b, c ≠ 10)
      ∧ arrow out ++ hexFixed 8 (16 * (i / 16)) ++ [32, 32] ++ cur
          ++ hexLoop sgn input out n i [] ++ [10] = hexRows out (i / 16) bodies := by
  induction n generalizing i cur with
  | zero =>
    refine ⟨[cur], by simp; omega, ?_, ?_⟩
    · intro b hb
      simp only [List.mem_singleton] at hb
      subst hb
      exact hcur
    · simp [hexLoop, hexRows]
  | succ n ih =>
    obtain ⟨body, hbody, _, hstep⟩ := hexStep_shape sgn input out i
    have hcb : ∀ c ∈ cur ++ body, c ≠ 10 := by
      intro c hc
      rcases List.mem_append.1 hc with h | h
      · exact hcur c h
      · exact (hbody c h).1
    rw [hexLoop_succ, hstep []]
    by_cases h16 : (i + 1) % 16 = 0
    · obtain ⟨bodies, hlen, hno, heq⟩ := ih (i + 1) [] (by simp)
      have hdiv : (i + 1) / 16 = i / 16 + 1 := by omega
      have hmul : 16 * ((i + 1) / 16) = i + 1 := by omega
      rw [hmul, hdiv] at heq
      refine ⟨(cur ++ body) :: bodies, ?_, ?_, ?_⟩
      · simp only [List.length_cons]; omega
      · intro b hb
        rcases List.mem_cons.1 hb with h | h
        · subst h; exact hcb
        · exact hno b h
      · rw [if_pos h16]
        simp only [hexRows, ← heq]
        simp only [List.append_assoc, List.nil_append, List.append_nil]
    · obtain ⟨bodies, hlen, hno, heq⟩ := ih (i + 1) (cur ++ body) hcb
      have hdiv : (i + 1) / 16 = i / 16 := by omega
      rw [hdiv] at heq hlen
      refine ⟨bodies, by omega, hno, ?_⟩
      rw [if_neg h16, ← heq]
      simp only [List.append_assoc, List.nil_append, List.append_nil]

theorem hexFixed_upper (w n : Nat) :
    ∀ d ∈ hexFixed w n, (48 ≤ d ∧ d ≤ 57) ∨ (65 ≤ d ∧ d ≤ 70) := by
  induction w generalizing n with
  | zero => simp [hexFixed]
  | succ w ih =>
    intro d hd
    simp only [hexFixed, List.mem_append, List.mem_singleton] at hd
    rcases hd with h | h
    · exact ih _ d h
    · subst h
      have : n % 16 < 16 := Nat.mod_lt _ (by decide)
      unfold hexDigit
      split <;> omega

theorem hexValue_hexFixed (w n : Nat) : hexValue (hexFixed w n) = n % 16 ^ w := by
  induction w generalizing n with
  | zero => simp [hexFixed, hexValue, Nat.mod_one]
  | succ w ih =>
    have hih := ih (n / 16)
    unfold hexValue at hih ⊢
    simp only [hexFixed, List.foldl_append, List.foldl_cons, List.foldl_nil, hih]
    have hlt : n % 16 < 16 := Nat.mod_lt _ (by decide)
    have hd : (if hexDigit (n % 16) ≤ 57 then hexDigit (n % 16) - 48
        else hexDigit (n % 16) - 55) = n % 16 := by
      unfold hexDigit
      by_cases h : n % 16 < 10
      · rw [if_pos h, if_pos (by omega)]; omega
      · rw [if_neg h, if_neg (by omega)]; omega
    rw [hd, pow_succ, Nat.mul_comm (16 ^ w) 16, Nat.mod_mul]
    omega

/-- The label of a row: exactly eight uppercase hexadecimal digits that denote 16*k (for
offsets below 2^32). -/
theorem hexRowLabel_digits (k : Nat) (hk : 16 * k < 4294967296) :
    (hexFixed 8 (16 * k)).length = 8
    ∧ (∀ d ∈ hexFixed 8 (16 * k), (48 ≤ d ∧ d ≤ 57) ∨ (65 ≤ d ∧ d ≤ 70))
    ∧ hexValue (hexFixed 8 (16 * k)) = 16 * k := by
  refine ⟨hexFixed_length _ _, hexFixed_upper _ _, ?_⟩
  rw [hexValue_hexFixed]
  exact Nat.mod_eq_of_lt (by norm_num; omega)

/-- C9: in hex mode the block of every payload of at most 1024 bytes is a sequence of rows
k = 0, 1, 2, ...; row k starts with the direction tag, the offset 16*k written as exactly
eight uppercase hexadecimal digits, and two spaces; the first row is labeled 00000000.
There are floor(M/16) + 1 rows for a payload of M bytes. -/
theorem formatString_hex_rows (sgn : Bool) (g : Globals) (input : List Nat) (out : Int)
    (hraw : g.rawFlag = 0) (hstrip : g.stripFlag = 0) (hhex : g.hexFlag ≠ 0)
    (hlen : strlen input ≤ BUFSZ) :
    ∃ bodies : List (List Nat), bodies.length = strlen input / 16 + 1
      ∧ (∀ b ∈ bodies, ∀ c ∈ b, c ≠ 10)
      ∧ formatString sgn g input out = hexRows out 0 bodies
      ∧ (∀ k, k < bodies.length → (hexFixed 8 (16 * k)).length = 8
          ∧ (∀ d ∈ hexFixed 8 (16 * k), (48 ≤ d ∧ d ≤ 57) ∨ (65 ≤ d ∧ d ≤ 70))
          ∧ hexValue (hexFixed 8 (16 * k)) = 16 * k)
      ∧ hexFixed 8 (16 * 0) = [48, 48, 48, 48, 48, 48, 48, 48] := by
  obtain ⟨bodies, hl, hno, heq⟩ := hexLoop_rows sgn input out (strlen input) 0 [] (by simp)
  have hl2 : bodies.length = strlen input / 16 + 1 := by simpa using hl
  refine ⟨bodies, hl2, hno, ?_, ?_, by decide⟩
  · rw [formatString_hex_eq sgn g input out hraw hstrip hhex]
    simpa using heq
  · intro k hk
    unfold BUFSZ at hlen
    exact hexRowLabel_digits k (by omega)

/-- Witness for C9: the inbound chunk ABC in hex mode. -/
theorem formatString_hex_rows_witness :
    ∃ bodies : List (List Nat), bodies.length = strlen [65, 66, 67] / 16 + 1
      ∧ (∀ b ∈ bodies, ∀ c ∈ b, c ≠ 10)
      ∧ formatString true ⟨0, 0, 1, 0, []⟩ [65, 66, 67] 0 = hexRows 0 0 bodies
      ∧ (∀ k, k < bodies.length → (hexFixed 8 (16 * k)).length = 8
          ∧ (∀ d ∈ hexFixed 8 (16 * k), (48 ≤ d ∧ d ≤ 57) ∨ (65 ≤ d ∧ d ≤ 70))
          ∧ hexValue (hexFixed 8 (16 * k)) = 16 * k)
      ∧ hexFixed 8 (16 * 0) = [48, 48, 48, 48, 48, 48, 48, 48] :=
  formatString_hex_rows true ⟨0, 0, 1, 0, []⟩ [65, 66, 67] 0 rfl rfl (by decide) (by decide)

/-- C15: in hex mode a payload of 16*k bytes, k at least 1, gives a block whose last bytes
are a newline, the direction tag, the eight uppercase hexadecimal digits of 16*k, two spaces
and the final newline: a trailing labeled line without cells or ASCII column. -/
theorem formatString_hex_trailing_row (sgn : Bool) (g : Globals) (input : List Nat) (out : Int)
    (k : Nat) (hraw : g.rawFlag = 0) (hstrip : g.stripFlag = 0) (hhex : g.hexFlag ≠ 0)
    (hM : strlen input = 16 * k) (hk : 1 ≤ k) :
    ∃ pre : List Nat, formatString sgn g input out
      = pre ++ [10] ++ arrow out ++ hexFixed 8 (16 * k) ++ [32, 32] ++ [10]
      ∧ (hexFixed 8 (16 * k)).length = 8
      ∧ (16 * k < 4294967296 → hexValue (hexFixed 8 (16 * k)) = 16 * k) := by
  obtain ⟨m, hm⟩ : ∃ m, strlen input = m + 1 := ⟨strlen input - 1, by omega⟩
  obtain ⟨body, _, _, hstep⟩ := hexStep_shape sgn input out m
  have h16 : (m + 1) % 16 = 0 := by omega
  rw [formatString_hex_eq sgn g input out hraw hstrip hhex, hm, hexLoop_succ_right,
    Nat.zero_add, hstep [], if_pos h16, ← hm, hM]
  refine ⟨arrow out ++ hexFixed 8 0 ++ [32, 32] ++ hexLoop sgn input out m 0 [] ++ body, ?_,
    hexFixed_length _ _, fun hlt => (hexRowLabel_digits k hlt).2.2⟩
  simp only [List.append_assoc, List.nil_append]

/-- Witness for C15: sixteen bytes A to P, outbound. -/
theorem formatString_hex_trailing_row_witness :
    ∃ pre : List Nat,
      formatString true ⟨0, 0, 1, 0, []⟩
        [65, 66, 67, 68, 69, 70, 71, 72, 73, 74, 75, 76, 77, 78, 79, 80] 1
      = pre ++ [10] ++ arrow 1 ++ hexFixed 8 (16 * 1) ++ [32, 32] ++ [10]
      ∧ (hexFixed 8 (16 * 1)).length = 8
      ∧ (16 * 1 < 4294967296 → hexValue (hexFixed 8 (16 * 1)) = 16 * 1) :=
  formatString_hex_trailing_row true ⟨0, 0, 1, 0, []⟩
    [65, 66, 67, 68, 69, 70, 71, 72, 73, 74, 75, 76, 77, 78, 79, 80] 1 1 rfl rfl (by decide)
    (by decide) (by decide)

/-- C10: for the 8-byte inbound payload ABCDEFGH, whose length is not a multiple of 16, the
hex block ends with the cell of H and two spaces, without any ASCII column, whereas the
3-byte payload ABC ends with the column |ABC|. -/
theorem formatString_hex_eight_bytes_no_ascii (sgn : Bool) :
    formatString sgn ⟨0, 0, 1, 0, []⟩ [65, 66, 67, 68, 69, 70, 71, 72] 0
      = [60, 45, 45, 32, 48, 48, 48, 48, 48, 48, 48, 48, 32, 32,
         52, 49, 32, 52, 50, 32, 52, 51, 32, 52, 52, 32, 52, 53, 32, 52, 54, 32, 52, 55, 32,
         52, 56, 32, 32, 10]
    ∧ formatString sgn ⟨0, 0, 1, 0, []⟩ [65, 66, 67] 0
      = [60, 45, 45, 32, 48, 48, 48, 48, 48, 48, 48, 48, 32, 32,
         52, 49, 32, 52, 50, 32, 52, 51, 32, 32, 32, 124, 65, 66, 67, 124, 10] := by
  cases sgn <;> decide

/-! ## Formatter: raw and strip modes, size of the block -/

/-- C12: in raw mode a NUL-free payload is rendered as the direction tag, the payload bytes
verbatim and one newline. -/
theorem formatString_raw (sgn : Bool) (g : Globals) (input : List Nat) (out : Int)
    (hraw : g.rawFlag ≠ 0) (hn : NulFree input) :
    formatString sgn g input out = arrow out ++ input ++ [10]
    ∧ arrow 1 = [45, 45, 62, 32] ∧ arrow 0 = [60, 45, 45, 32] := by
  unfold formatString
  rw [if_pos hraw, cstr_of_nulFree hn]
  exact ⟨rfl, by decide, by decide⟩

/-- Witness for C12 (scenario S3): the outbound chunk h i LF gives the tag, hi and two
newlines. -/
theorem formatString_raw_witness :
    formatString true ⟨1, 0, 0, 0, []⟩ [104, 105, 10] 1 = [45, 45, 62, 32, 104, 105, 10, 10] :=
  ((formatString_raw true ⟨1, 0, 0, 0, []⟩ [104, 105, 10] 1 (by decide)
    (by simp [NulFree])).1).trans (by decide)

/-- C11: in strip mode a NUL-free payload of bytes is rendered as the direction tag, then the
payload with every byte outside 0x20..0x7E replaced by a dot and the others unchanged, then
one newline; the rendered payload has as many bytes as the payload. -/
theorem formatString_strip (sgn : Bool) (g : Globals) (input : List Nat) (out : Int)
    (hraw : g.rawFlag = 0) (hstrip : g.stripFlag ≠ 0) (hn : NulFree input)
    (hb : ∀ b ∈ input, b < 256) :
    formatString sgn g input out
      = arrow out ++ input.map (fun b => if 32 ≤ b ∧ b ≤ 126 then b else 46) ++ [10]
    ∧ (input.map (fun b => if 32 ≤ b ∧ b ≤ 126 then b else 46)).length = input.length := by
  refine ⟨?_, List.length_map _ _⟩
  have hmap : input.map (fun b => if !isprint (charToInt sgn b) then 46 else b)
      = input.map (fun b => if 32 ≤ b ∧ b ≤ 126 then b else 46) := by
    apply List.map_congr_left
    intro b hbm
    rw [isprint_byte sgn b (hb b hbm)]
    by_cases h : 32 ≤ b ∧ b ≤ 126
    · simp [h]
    · simp only [h, decide_False, Bool.not_false, if_true, if_false]
  have hnf : NulFree (input.map (fun b => if 32 ≤ b ∧ b ≤ 126 then b else 46)) := by
    intro c hc
    obtain ⟨b, _, hbc⟩ := List.mem_map.1 hc
    subst hbc
    split <;> omega
  unfold formatString
  simp only [hraw, ne_eq, not_true_eq_false, if_false, hstrip, not_false_eq_true, if_true]
  rw [cstr_of_nulFree hn, hmap, cstr_of_nulFree hnf]

/-- Witness for C11: the outbound chunk A, 0x80, TAB, DEL, tilde in strip mode. -/
theorem formatString_strip_witness :
    formatString true ⟨0, 1, 0, 0, []⟩ [65, 128, 9, 127, 126] 1
      = [45, 45, 62, 32, 65, 46, 46, 46, 126, 10] :=
  ((formatString_strip true ⟨0, 1, 0, 0, []⟩ [65, 128, 9, 127, 126] 1 rfl (by decide)
    (by simp [NulFree]) (by simp)).1).trans (by decide)

theorem hexLoop_length (sgn : Bool) (input : List Nat) (out : Int) (n i : Nat)
    (h : i + n < strlen input) :
    (hexLoop sgn input out n i []).length + (4 * i + 34 * (i / 16))
      ≤ 4 * (i + n) + 34 * ((i + n) / 16) := by
  induction n generalizing i with
  | zero => simp [hexLoop]
  | succ n ih =>
    rw [hexLoop_succ]
    obtain ⟨body, _, hlen, hstep⟩ := hexStep_shape sgn input out i
    rw [hstep []]
    have hih := ih (i + 1) (by omega)
    have hne : ¬ i = strlen input - 1 := by omega
    have ha := arrow_length out
    rw [show i + (n + 1) = i + 1 + n by omega]
    simp only [List.length_append, List.nil_append]
    by_cases h16 : (i + 1) % 16 = 0
    · rw [if_pos (Or.inl h16)] at hlen
      rw [if_pos h16]
      simp only [List.length_append, List.length_cons, List.length_nil, ha, hexFixed_length]
      omega
    · rw [if_neg (fun h => h.elim h16 hne)] at hlen
      rw [if_neg h16]
      simp only [List.length_nil]
      omega

theorem hexLoop_length_total (sgn : Bool) (input : List Nat) (out : Int) :
    (hexLoop sgn input out (strlen input) 0 []).length
      ≤ 4 * strlen input + 34 * (strlen input / 16) + 38 := by
  cases hM : strlen input with
  | zero => simp [hexLoop]
  | succ m =>
    rw [hexLoop_succ_right, Nat.zero_add]
    obtain ⟨body, _, hlen, hstep⟩ := hexStep_shape sgn input out m
    rw [hstep []]
    have h1 := hexLoop_length sgn input out m 0 (by omega)
    have ha := arrow_length out
    have hb : body.length ≤ 23 := by
      split at hlen <;> omega
    simp only [List.length_append, List.nil_append]
    split
    · simp only [List.length_append, List.length_cons, List.length_nil, ha, hexFixed_length]
      omega
    · simp only [List.length_nil]
      omega

/-- The block produced by formatString for a payload of at most 1024 bytes, with its
terminating NUL, fits in 16 * 1024 bytes, in every display mode. -/
theorem formatString_length_bound (sgn : Bool) (g : Globals) (input : List Nat) (out : Int)
    (h : strlen input ≤ BUFSZ) :
    (formatString sgn g input out).length + 1 ≤ 16 * BUFSZ := by
  have ha := arrow_length out
  have hcl : ∀ s : List Nat, (cstr s).length ≤ s.length := fun s => by
    unfold cstr; exact (List.takeWhile_sublist _).length_le
  unfold BUFSZ at h ⊢
  by_cases hraw : g.rawFlag ≠ 0
  · unfold formatString
    rw [if_pos hraw]
    unfold strlen at h
    simp only [List.length_append, ha, List.length_cons, List.length_nil]
    omega
  have hraw0 : g.rawFlag = 0 := by simpa using hraw
  by_cases hstrip : g.stripFlag ≠ 0
  · unfold formatString
    rw [if_neg hraw, if_pos hstrip]
    have := hcl ((cstr input).map (fun b => if !isprint (charToInt sgn b) then 46 else b))
    unfold strlen at h
    simp only [List.length_append, ha, List.length_cons, List.length_nil, List.length_map]
      at this ⊢
    omega
  have hstrip0 : g.stripFlag = 0 := by simpa using hstrip
  by_cases hhex : g.hexFlag ≠ 0
  · rw [formatString_hex_eq sgn g input out hraw0 hstrip0 hhex]
    have := hexLoop_length_total sgn input out
    simp only [List.length_append, ha, hexFixed_length, List.length_cons, List.length_nil]
    omega
  have hhex0 : g.hexFlag = 0 := by simpa using hhex
  by_cases hauto : g.autoValue > 0
  · obtain ⟨N, hN⟩ : ∃ N : Nat, g.autoValue = (N : Int) := ⟨g.autoValue.toNat, by omega⟩
    rw [formatString_auto_eq sgn g N input out hraw0 hstrip0 hhex0 hN (by omega)]
    have := autoLoop_length sgn N input out (strlen input) 0
    simp only [List.length_append, ha, List.length_cons, List.length_nil]
    omega
  · unfold formatString
    rw [if_neg hraw, if_neg hstrip, if_neg hhex, if_neg hauto]
    simp

/-- C19: for the payload of 1024 bytes A (a full read) in strip mode the block with its NUL
fits the 16 * 1024 bytes of `formatted`, but `strcpy(temp, input)` stores 1025 cells into the
1024 cells of the array `temp` of the strip branch. -/
theorem formatString_strip_temp_overflow (sgn : Bool) :
    strlen (List.replicate 1024 65) ≤ BUFSZ
    ∧ (formatString sgn ⟨0, 1, 0, 0, []⟩ (List.replicate 1024 65) 1).length + 1 ≤ 16 * BUFSZ
    ∧ stripTempWritten (List.replicate 1024 65) = 1025
    ∧ stripTempCapacity = 1024 := by
  have hx : NulFree (List.replicate 1024 65) := by
    intro b hb; rw [List.eq_of_mem_replicate hb]; decide
  have hlen : strlen (List.replicate 1024 65) = 1024 := by
    rw [strlen_of_nulFree hx, List.length_replicate]
  refine ⟨by rw [hlen]; decide, formatString_length_bound sgn _ _ _ (by rw [hlen]; decide), ?_, rfl⟩
  unfold stripTempWritten
  rw [hlen]

theorem range_map_getD_drop (L : List Nat) (d c : Nat) (hc : d + c = L.length) :
    (List.range c).map (fun k => L.getD (d + k) 0) = L.drop d := by
  apply List.ext_getElem
  · simp; omega
  · intro k h1 h2
    simp only [List.length_map, List.length_range] at h1
    have hlt : d + k < L.length := by omega
    simp [List.getElem?_eq_getElem hlt]

/-- In hex mode, for a NUL-free payload of bytes whose length modulo 16 is neither 0 nor 8,
the block ends with the ASCII column of the last row: a bar, the last (M mod 16) payload
bytes with the bytes outside 0x20..0x7E shown as a dot, a bar and a newline. -/
theorem formatString_hex_last_row_ascii (sgn : Bool) (g : Globals) (input : List Nat)
    (out : Int) (hraw : g.rawFlag = 0) (hstrip : g.stripFlag = 0) (hhex : g.hexFlag ≠ 0)
    (hn : NulFree input) (hb : ∀ b ∈ input, b < 256)
    (h0 : input.length % 16 ≠ 0) (h8 : input.length % 16 ≠ 8) :
    ∃ pre : List Nat, formatString sgn g input out
      = pre ++ [124]
        ++ (input.drop (input.length - input.length % 16)).map
            (fun b => if 32 ≤ b ∧ b ≤ 126 then b else 46)
        ++ [124, 10] := by
  have hM : strlen input = input.length := strlen_of_nulFree hn
  obtain ⟨m, hm⟩ : ∃ m, input.length = m + 1 := ⟨input.length - 1, by omega⟩
  have hA : ¬ ((m + 1) % 8 = 0 ∧ (m + 1) % 16 ≠ 0) := by omega
  have hB : (m + 1) % 16 = 0 ∨ m = strlen input - 1 := Or.inr (by omega)
  have h16 : ¬ (m + 1) % 16 = 0 := by omega
  have hidx : (fun k => input.getD (m + k + 1 - (m + 1) % 16) 0)
      = (fun k => input.getD ((m + 1 - (m + 1) % 16) + k) 0) := by
    funext k
    have : (m + 1) % 16 ≤ m + 1 := Nat.mod_le _ _
    congr 1
    omega
  have hdrop : (List.range ((m + 1) % 16)).map
      (fun k => input.getD ((m + 1 - (m + 1) % 16) + k) 0)
      = input.drop (m + 1 - (m + 1) % 16) :=
    range_map_getD_drop input _ _ (by have : (m + 1) % 16 ≤ m + 1 := Nat.mod_le _ _; omega)
  have htail : NulFree (input.drop (m + 1 - (m + 1) % 16)) :=
    fun c hc => hn c (List.mem_of_mem_drop hc)
  have hact : NulFree ([32, 32, 124] ++ input.drop (m + 1 - (m + 1) % 16) ++ [124]) :=
    nulFree_append.2 ⟨nulFree_append.2 ⟨by simp [NulFree], htail⟩, by simp [NulFree]⟩
  have hmap : (input.drop (m + 1 - (m + 1) % 16)).map
      (fun c => if isprint (charToInt sgn c) = true then c else 46)
      = (input.drop (m + 1 - (m + 1) % 16)).map (fun b => if 32 ≤ b ∧ b ≤ 126 then b else 46) := by
    apply List.map_congr_left
    intro b hbm
    rw [isprint_byte sgn b (hb b (List.mem_of_mem_drop hbm))]
    simp
  have hsp : (if isprint (charToInt sgn 32) = true then 32 else 46) = 32 := by
    cases sgn <;> decide
  have hbar : (if isprint (charToInt sgn 124) = true then 124 else 46) = 124 := by
    cases sgn <;> decide
  rw [formatString_hex_eq sgn g input out hraw hstrip hhex, hM, hm, hexLoop_succ_right,
    Nat.zero_add]
  unfold hexStep
  simp only [if_neg hA, if_pos hB, if_neg h16, hidx, hdrop, cstr_of_nulFree hact,
    List.map_append, List.map_cons, List.map_nil, hsp, hbar, hmap]
  refine ⟨arrow out ++ hexFixed 8 0 ++ [32, 32] ++ hexLoop sgn input out m 0 []
    ++ [(fmtX 2 (charToInt sgn (input.getD m 0))).getD 0 0,
        (fmtX 2 (charToInt sgn (input.getD m 0))).getD 1 0, 32] ++ [32, 32], ?_⟩
  simp only [List.append_assoc, List.nil_append, List.cons_append, List.singleton_append]

/-! ## The relay session -/

theorem replaceRules_nil_input (R : List (List Nat × List Nat)) :
    replaceRules R [] = some [] := by
  induction R with
  | nil => rfl
  | cons q R ih =>
    obtain ⟨p, w⟩ := q
    unfold replaceRules
    split
    · rfl
    · rename_i hlen
      have hp : cstr p ≠ [] := fun h => hlen (by unfold strlen; rw [h]; rfl)
      rw [replaceLoop_eq (cstr p) (cstr w) hp _ [] [] (Nat.lt_succ_self _)]
      have h0 : ([] ++ refReplace (cstr p) (cstr w) 0 []).length < BUFSZ := by
        simp [refReplace, BUFSZ]
      rw [if_pos h0]
      simpa [refReplace, cstr] using ih

theorem cstr_append_zero (a X : List Nat) : cstr (a ++ 0 :: X) = cstr a := by
  induction a with
  | nil => simp [cstr]
  | cons c t ih =>
    unfold cstr at ih ⊢
    by_cases hc : c = 0
    · subst hc; simp
    · simp [List.takeWhile_cons, hc, ih]

/-- Contents of the chunk string after a read of at most 1024 bytes other than 1023: the
bytes read, followed by a NUL. -/
theorem chunkString_shape (buffer data : List Nat) (h1 : data.length ≤ 1024)
    (h2 : data.length ≠ 1023) :
    ∃ X, chunkString (readInto (bzeroBuffer buffer) data) = data ++ 0 :: X := by
  unfold chunkString readInto bzeroBuffer BUFSZ
  rw [List.take_of_length_le h1, Nat.min_eq_left h1]
  by_cases h : data.length = 1024
  · refine ⟨[], ?_⟩
    rw [List.take_left' h]
  · have hlt : data.length < 1023 := by omega
    obtain ⟨k, hk⟩ : ∃ k, 1024 - 1 - data.length = k + 1 := ⟨1022 - data.length, by omega⟩
    obtain ⟨j, hj⟩ : ∃ j, 1024 - data.length = j + 1 := ⟨1023 - data.length, by omega⟩
    rw [List.drop_append_of_le_length (by rw [List.length_replicate]; omega),
      List.drop_replicate, hk,
      List.replicate_succ, List.take_append_eq_append_take, List.take_of_length_le (by omega),
      hj]
    simp only [List.cons_append, List.take_succ_cons, List.append_assoc]
    exact ⟨_, rfl⟩

theorem chunkString_empty (buffer data : List Nat) (h : cstr data = []) :
    cstr (chunkString (readInto (bzeroBuffer buffer) data)) = [] := by
  cases data with
  | nil =>
    obtain ⟨X, hX⟩ := chunkString_shape buffer [] (by simp) (by simp)
    rw [hX]; simp [cstr]
  | cons c t =>
    have hc : c = 0 := by
      by_contra hne
      simp [cstr, List.takeWhile_cons, hne] at h
    subst hc
    simp [chunkString, readInto, BUFSZ, cstr]

theorem relayHalf_eq (sgn : Bool) (g : Globals) (buffer : List Nat) (target : Fd) (out : Int)
    (data : List Nat) (ret : Int) (replaced : List Nat)
    (h : replaceString g.rules (chunkString (readInto (bzeroBuffer buffer) data))
      = some replaced) :
    relayHalf sgn g buffer target out data ret
      = some (if sysWrite ret (strlen replaced) < 1
          then ([Event.write target (cstr replaced)], true,
                readInto (bzeroBuffer buffer) data)
          else ([Event.write target (cstr replaced),
                 Event.printf (formatString sgn g replaced out)], false,
                readInto (bzeroBuffer buffer) data)) := by
  unfold relayHalf
  simp only [h, writeStrToFd]
  split <;> rfl

theorem relayHalf_none (sgn : Bool) (g : Globals) (buffer : List Nat) (target : Fd)
    (out : Int) (data : List Nat) (ret : Int)
    (h : replaceString g.rules (chunkString (readInto (bzeroBuffer buffer) data)) = none) :
    relayHalf sgn g buffer target out data ret = none := by
  unfold relayHalf
  simp only [h]

theorem replaceString_nil_rules (input : List Nat) (h : strlen input ≤ BUFSZ) :
    replaceString [] input = some (cstr input) := by
  unfold replaceString
  rw [if_pos (by unfold BUFSZ at h ⊢; omega)]
  rfl

/-- C1, counterexample: with no rules, the chunk A NUL B read from the client is forwarded
as the single byte A. -/
theorem forward_truncates_at_nul :
    relayHalf true ⟨0, 0, 0, 0, []⟩ (List.replicate 1024 0) Fd.dest 1 [65, 0, 66] 1
      = some ([Event.write Fd.dest [65], Event.printf []], false,
          readInto (bzeroBuffer (List.replicate 1024 0)) [65, 0, 66]) := by
  obtain ⟨X, hX⟩ := chunkString_shape (List.replicate 1024 0) [65, 0, 66] (by simp) (by simp)
  have hc : cstr (chunkString (readInto (bzeroBuffer (List.replicate 1024 0)) [65, 0, 66]))
      = [65] := by
    rw [hX]; simp [cstr, List.takeWhile_cons]
  have hw : ¬ (sysWrite 1 (strlen [65]) < 1) := by decide
  have h65 : cstr [65] = [65] := by decide
  have hf : formatString true ⟨0, 0, 0, 0, []⟩ [65] 1 = [] := by decide
  have hr : replaceString [] (chunkString (readInto (bzeroBuffer (List.replicate 1024 0))
      [65, 0, 66])) = some [65] := by
    rw [replaceString_nil_rules _ (by unfold strlen; rw [hc]; decide), hc]
  rw [relayHalf_eq true ⟨0, 0, 0, 0, []⟩ _ Fd.dest 1 [65, 0, 66] 1 [65] hr, if_neg hw, h65, hf]

/-- C1, amended: with no rules, a NUL-free chunk of at most 1024 bytes whose length is not
1023 is handed to the forwarding write unchanged, whatever the target and direction. -/
theorem forward_transparent (sgn : Bool) (g : Globals) (buffer : List Nat) (target : Fd)
    (out : Int) (B : List Nat) (ret : Int) (hr : g.rules = []) (hB : NulFree B)
    (h1 : B.length ≤ 1024) (h2 : B.length ≠ 1023) :
    ∃ rest brk, relayHalf sgn g buffer target out B ret
      = some (Event.write target B :: rest, brk, readInto (bzeroBuffer buffer) B) := by
  obtain ⟨X, hX⟩ := chunkString_shape buffer B h1 h2
  have hc : cstr (chunkString (readInto (bzeroBuffer buffer) B)) = B := by
    rw [hX, cstr_append_zero, cstr_of_nulFree hB]
  have hrs : replaceString g.rules (chunkString (readInto (bzeroBuffer buffer) B))
      = some B := by
    rw [hr, replaceString_nil_rules _ (by unfold strlen BUFSZ; rw [hc]; exact h1), hc]
  rw [relayHalf_eq sgn g buffer target out B ret B hrs, cstr_of_nulFree hB]
  split
  · exact ⟨[], true, rfl⟩
  · exact ⟨[Event.printf (formatString sgn g B out)], false, rfl⟩

/-- Witness for C1 amended: the chunk hi forwarded to the upstream socket. -/
theorem forward_transparent_witness :
    ∃ rest brk, relayHalf true ⟨0, 0, 0, 0, []⟩ [] Fd.dest 1 [104, 105] 2
      = some (Event.write Fd.dest [104, 105] :: rest, brk,
          readInto (bzeroBuffer []) [104, 105]) :=
  forward_transparent true ⟨0, 0, 0, 0, []⟩ [] Fd.dest 1 [104, 105] 2 rfl (by simp [NulFree])
    (by simp) (by simp)

theorem chunkString_strlen (buffer data : List Nat) (h : data.length < 1023) :
    strlen (chunkString (readInto (bzeroBuffer buffer) data)) ≤ data.length := by
  obtain ⟨X, hX⟩ := chunkString_shape buffer data (by omega) (by omega)
  unfold strlen
  rw [hX, cstr_append_zero]
  unfold cstr
  exact (List.takeWhile_sublist _).length_le

/-- C13: in each direction, whenever the substitution has a result, a forwarding write that
returns less than 1 makes the iteration take `break` with the write as its only action (no
transcript entry); a positive result is followed by the transcript entry of the chunk and no
`break`.  (Without a result of the substitution, a store outside its arrays, the session has
no defined behaviour; there is a result for every chunk below 1023 bytes when no rule
expands.)  In an iteration the upstream socket is serviced first, the client socket only if
the upstream half did not break; a `break` ends the loop and a session that leaves the loop
closes both sockets, otherwise the loop goes on with the next iteration. -/
theorem relay_write_then_transcript (sgn : Bool) (g : Globals) (buffer : List Nat)
    (e : IterEnv) :
    (∀ (b : List Nat) (target : Fd) (out : Int) (data : List Nat) (ret : Int),
      (∀ replaced, replaceString g.rules (chunkString (readInto (bzeroBuffer b) data))
          = some replaced →
          (sysWrite ret (strlen replaced) < 1 →
            relayHalf sgn g b target out data ret
              = some ([Event.write target (cstr replaced)], true,
                  readInto (bzeroBuffer b) data))
          ∧ (¬ sysWrite ret (strlen replaced) < 1 →
            relayHalf sgn g b target out data ret
              = some ([Event.write target (cstr replaced),
                  Event.printf (formatString sgn g replaced out)], false,
                  readInto (bzeroBuffer b) data)))
      ∧ (replaceString g.rules (chunkString (readInto (bzeroBuffer b) data)) = none →
          relayHalf sgn g b target out data ret = none)
      ∧ (data.length < 1023 → (∀ q ∈ g.rules, strlen q.2 ≤ strlen q.1) →
          ∃ replaced, replaceString g.rules (chunkString (readInto (bzeroBuffer b) data))
            = some replaced))
    ∧ (∀ evUp brkUp bUp,
        (if e.destret > 0 then relayHalf sgn g buffer Fd.conn 0 e.destData e.connWriteRet
          else some ([], false, buffer)) = some (evUp, brkUp, bUp) →
        (brkUp = true → relayIter sgn g buffer e = some (evUp, true, bUp))
        ∧ (brkUp = false → ∀ evC brkC bC,
            (if e.srcret > 0 ∧ e.srcIsSet = true
              then relayHalf sgn g bUp Fd.dest 1 e.connData e.destWriteRet
              else some ([], false, bUp)) = some (evC, brkC, bC) →
            relayIter sgn g buffer e = some (evUp ++ evC, brkC, bC)))
    ∧ (∀ (es : List IterEnv) (ev : List Event) (b : List Nat),
        relayIter sgn g buffer e = some (ev, true, b) →
          relayLoop sgn g buffer (e :: es) = some (ev, true))
    ∧ (∀ (es : List IterEnv) (ev : List Event) (b : List Nat),
        relayIter sgn g buffer e = some (ev, false, b) →
          relayLoop sgn g buffer (e :: es)
            = (relayLoop sgn g b es).map (fun r => (ev ++ r.1, r.2)))
    ∧ (∀ (s : SetupEnv) (es : List IterEnv) (ev : List Event),
        ¬ s.socketRet < 0 → s.serverNull = false → ¬ s.connectRet < 0 →
        relayLoop sgn g buffer es = some (ev, true) →
          connThread sgn g buffer s es
            = some ([Event.printf (bytesOf "Connected to destination server\n")] ++ ev
                ++ [Event.close Fd.dest, Event.close Fd.conn,
                    Event.printf (bytesOf "Connection terminated\n")])) := by
  refine ⟨?_, ?_, ?_, ?_, ?_⟩
  · intro b target out data ret
    refine ⟨fun replaced hy => ⟨fun h => ?_, fun h => ?_⟩, fun hn => ?_, fun hd hR => ?_⟩
    · rw [relayHalf_eq sgn g b target out data ret replaced hy, if_pos h]
    · rw [relayHalf_eq sgn g b target out data ret replaced hy, if_neg h]
    · exact relayHalf_none sgn g b target out data ret hn
    · obtain ⟨y, hy, _⟩ := replaceString_defined
        (chunkString (readInto (bzeroBuffer b) data)) g.rules
        (by have := chunkString_strlen b data hd; unfold BUFSZ; omega) hR
      exact ⟨y, hy⟩
  · intro evUp brkUp bUp hU
    refine ⟨fun hb => ?_, fun hb evC brkC bC hC => ?_⟩
    · subst hb
      unfold relayIter
      simp only [hU]
    · subst hb
      by_cases hc : e.srcret > 0 ∧ e.srcIsSet = true
      · rw [if_pos hc] at hC
        unfold relayIter
        simp only [hU, if_pos hc, hC]
      · rw [if_neg hc] at hC
        simp only [Option.some.injEq, Prod.mk.injEq] at hC
        obtain ⟨h1, h2, h3⟩ := hC
        subst h1 h2 h3
        unfold relayIter
        simp only [hU, if_neg hc, List.append_nil]
  · intro es ev b h
    simp only [relayLoop, h]
  · intro es ev b h
    simp only [relayLoop, h]
    cases relayLoop sgn g b es with
    | none => rfl
    | some r => rfl
  · intro s es ev h1 h2 h3 hl
    unfold connThread
    rw [if_neg h1, if_neg (by simp [h2]), if_neg h3, hl]

/-- C14: on each of the three setup failures the session logs, writes the diagnostic line
to the client socket and returns; no socket is closed, although the normal end of a session
closes both. -/
theorem connThread_setup_failure_no_close (sgn : Bool) (g : Globals) (buffer : List Nat)
    (es : List IterEnv) :
    connThread sgn g buffer ⟨-1, false, 0⟩ es
      = some [Event.printf (bytesOf "Destination socket failed\n"),
              Event.write Fd.conn (bytesOf "Destination socket failed\n")]
    ∧ connThread sgn g buffer ⟨3, true, 0⟩ es
      = some [Event.printf (bytesOf "Destination server null\n"),
              Event.write Fd.conn (bytesOf "Destination server null\n")]
    ∧ connThread sgn g buffer ⟨3, false, -1⟩ es
      = some [Event.printf (bytesOf "Connection to destination server failed\n"),
              Event.write Fd.conn (bytesOf "Could not reach destination server\n")]
    ∧ (∀ s : SetupEnv, s.socketRet < 0 ∨ s.serverNull = true ∨ s.connectRet < 0 →
        ∃ ev, connThread sgn g buffer s es = some ev ∧ Event.close Fd.conn ∉ ev
          ∧ Event.close Fd.dest ∉ ev)
    ∧ (∀ (s : SetupEnv) (ev : List Event),
        ¬ s.socketRet < 0 → s.serverNull = false → ¬ s.connectRet < 0 →
        relayLoop sgn g buffer es = some (ev, true) →
        ∃ evs, connThread sgn g buffer s es = some evs ∧ Event.close Fd.conn ∈ evs
          ∧ Event.close Fd.dest ∈ evs) := by
  refine ⟨by simp [connThread], by simp [connThread], by simp [connThread], ?_, ?_⟩
  · intro s hs
    unfold connThread
    by_cases h1 : s.socketRet < 0
    · rw [if_pos h1]; exact ⟨_, rfl, by simp, by simp⟩
    by_cases h2 : s.serverNull = true
    · rw [if_neg h1, if_pos h2]; exact ⟨_, rfl, by simp, by simp⟩
    by_cases h3 : s.connectRet < 0
    · rw [if_neg h1, if_neg h2, if_pos h3]; exact ⟨_, rfl, by simp, by simp⟩
    · rcases hs with h | h | h
      · exact absurd h h1
      · exact absurd h h2
      · exact absurd h h3
  · intro s ev h1 h2 h3 hl
    unfold connThread
    rw [if_neg h1, if_neg (by simp [h2]), if_neg h3, hl]
    exact ⟨_, rfl, by simp, by simp⟩

theorem relayLoop_append (sgn : Bool) (g : Globals) (pre : List IterEnv) :
    ∀ (buffer : List Nat) (evPre : List Event),
      relayLoop sgn g buffer pre = some (evPre, false) →
      ∃ b, ∀ rest, relayLoop sgn g buffer (pre ++ rest)
        = (relayLoop sgn g b rest).map (fun r => (evPre ++ r.1, r.2)) := by
  induction pre with
  | nil =>
    intro buffer evPre h
    simp only [relayLoop, Option.some.injEq, Prod.mk.injEq, and_true] at h
    subst h
    refine ⟨buffer, fun rest => ?_⟩
    rw [List.nil_append]
    cases relayLoop sgn g buffer rest with
    | none => rfl
    | some r => simp
  | cons e pre ih =>
    intro buffer evPre h
    simp only [relayLoop] at h
    cases hi : relayIter sgn g buffer e with
    | none => simp [hi] at h
    | some t =>
      obtain ⟨ev, brk, b1⟩ := t
      cases brk with
      | true => simp [hi] at h
      | false =>
        simp only [hi] at h
        cases hl : relayLoop sgn g b1 pre with
        | none => simp [hl] at h
        | some r =>
          obtain ⟨evs, brk2⟩ := r
          simp only [hl, Option.some.injEq, Prod.mk.injEq] at h
          obtain ⟨h1, h2⟩ := h
          subst h1 h2
          obtain ⟨b, hb⟩ := ih b1 evs hl
          refine ⟨b, fun rest => ?_⟩
          have hstep : relayLoop sgn g buffer (e :: (pre ++ rest))
              = match relayLoop sgn g b1 (pre ++ rest) with
                | none => none
                | some (evs, brk) => some (ev ++ evs, brk) := by
            simp only [relayLoop, hi]
          rw [List.cons_append, hstep, hb rest]
          cases relayLoop sgn g b rest with
          | none => rfl
          | some r => simp [List.append_assoc]

/-- C18: when the substituted chunk is the empty string, writeStrToFd asks for a write of 0
bytes, the result is below 1 and the iteration takes `break`.  In whatever iteration of the
loop this happens (after any iterations `pre` that did not break, `b` being the buffer they
leave), in the upstream direction or in the client direction after an upstream half that did
not break, the session leaves the loop and closes both sockets.  The chunk is empty when the
read stored no bytes or a leading NUL, and when the rules delete every byte, as rule
(cat, "") on cat. -/
theorem empty_chunk_ends_session (sgn : Bool) (g : Globals) (buffer : List Nat)
    (s : SetupEnv) (pre : List IterEnv) (evPre : List Event)
    (h1 : ¬ s.socketRet < 0) (h2 : s.serverNull = false) (h3 : ¬ s.connectRet < 0)
    (hpre : relayLoop sgn g buffer pre = some (evPre, false)) :
    (∀ (b : List Nat) (target : Fd) (out : Int) (data : List Nat) (ret : Int),
      replaceString g.rules (chunkString (readInto (bzeroBuffer b) data)) = some [] →
        writeStrToFd target [] ret = (Event.write target [], sysWrite ret 0)
        ∧ sysWrite ret 0 < 1
        ∧ relayHalf sgn g b target out data ret
          = some ([Event.write target []], true, readInto (bzeroBuffer b) data))
    ∧ (∃ b : List Nat,
        (∀ rest, relayLoop sgn g buffer (pre ++ rest)
          = (relayLoop sgn g b rest).map (fun r => (evPre ++ r.1, r.2)))
        ∧ (∀ (e : IterEnv) (post : List IterEnv), e.destret > 0 →
            replaceString g.rules (chunkString (readInto (bzeroBuffer b) e.destData))
              = some [] →
            connThread sgn g buffer s (pre ++ e :: post)
              = some ([Event.printf (bytesOf "Connected to destination server\n")]
                  ++ (evPre ++ [Event.write Fd.conn []])
                  ++ [Event.close Fd.dest, Event.close Fd.conn,
                      Event.printf (bytesOf "Connection terminated\n")]))
        ∧ (∀ (e : IterEnv) (post : List IterEnv) (evUp : List Event) (bUp : List Nat),
            (if e.destret > 0 then relayHalf sgn g b Fd.conn 0 e.destData e.connWriteRet
              else some ([], false, b)) = some (evUp, false, bUp) →
            e.srcret > 0 → e.srcIsSet = true →
            replaceString g.rules (chunkString (readInto (bzeroBuffer bUp) e.connData))
              = some [] →
            connThread sgn g buffer s (pre ++ e :: post)
              = some ([Event.printf (bytesOf "Connected to destination server\n")]
                  ++ (evPre ++ (evUp ++ [Event.write Fd.dest []]))
                  ++ [Event.close Fd.dest, Event.close Fd.conn,
                      Event.printf (bytesOf "Connection terminated\n")])))
    ∧ (∀ (b data : List Nat), cstr data = [] →
        replaceString g.rules (chunkString (readInto (bzeroBuffer b) data)) = some [])
    ∧ (∀ b : List Nat,
        replaceString [([99, 97, 116], [])]
          (chunkString (readInto (bzeroBuffer b) [99, 97, 116])) = some []) := by
  have hw : ∀ ret : Int, sysWrite ret 0 < 1 := by
    intro ret
    unfold sysWrite
    split <;> omega
  have half : ∀ (b : List Nat) (target : Fd) (out : Int) (data : List Nat) (ret : Int),
      replaceString g.rules (chunkString (readInto (bzeroBuffer b) data)) = some [] →
      relayHalf sgn g b target out data ret
          = some ([Event.write target []], true, readInto (bzeroBuffer b) data) := by
    intro b target out data ret h
    have h0 : strlen [] = 0 := rfl
    have hc : cstr [] = [] := rfl
    rw [relayHalf_eq sgn g b target out data ret [] h, h0, hc, if_pos (hw ret)]
  have hconn : ∀ (es : List IterEnv) (ev : List Event),
      relayLoop sgn g buffer es = some (ev, true) →
      connThread sgn g buffer s es
        = some ([Event.printf (bytesOf "Connected to destination server\n")] ++ ev
            ++ [Event.close Fd.dest, Event.close Fd.conn,
                Event.printf (bytesOf "Connection terminated\n")]) := by
    intro es ev hl
    unfold connThread
    rw [if_neg h1, if_neg (by simp [h2]), if_neg h3, hl]
  refine ⟨?_, ?_, ?_, ?_⟩
  · intro b target out data ret h
    exact ⟨rfl, hw ret, half b target out data ret h⟩
  · obtain ⟨b, hb⟩ := relayLoop_append sgn g pre buffer evPre hpre
    refine ⟨b, hb, ?_, ?_⟩
    · intro e post hd h
      have hi : relayIter sgn g b e
          = some ([Event.write Fd.conn []], true, readInto (bzeroBuffer b) e.destData) := by
        unfold relayIter
        simp only [if_pos hd, half b Fd.conn 0 e.destData e.connWriteRet h]
      apply hconn
      rw [hb (e :: post)]
      simp only [relayLoop, hi, Option.map_some']
    · intro e post evUp bUp hU hs hset h
      have hi : relayIter sgn g b e
          = some (evUp ++ [Event.write Fd.dest []], true,
              readInto (bzeroBuffer bUp) e.connData) := by
        unfold relayIter
        simp only [hU, hs, hset, and_self, if_true,
          half bUp Fd.dest 1 e.connData e.destWriteRet h]
      apply hconn
      rw [hb (e :: post)]
      simp only [relayLoop, hi, Option.map_some']
  · intro b data hdata
    have hc := chunkString_empty b data hdata
    unfold replaceString
    rw [if_pos (by unfold strlen; rw [hc]; decide), hc]
    exact replaceRules_nil_input _
  · intro b
    obtain ⟨X, hX⟩ := chunkString_shape b [99, 97, 116] (by simp) (by simp)
    have hc : cstr (chunkString (readInto (bzeroBuffer b) [99, 97, 116])) = [99, 97, 116] := by
      rw [hX, cstr_append_zero]; decide
    unfold replaceString
    rw [if_pos (by unfold strlen; rw [hc]; decide), hc]
    decide

/-- Witness for C18: with no rules, an upstream read that stores nothing in the first
iteration, and a client read that stores nothing in the second iteration after an idle
first one. -/
theorem empty_chunk_ends_session_witness :
    connThread true ⟨0, 0, 0, 0, []⟩ [] ⟨3, false, 0⟩ ([] ++ ⟨1, [], 0, 0, false, [], 0⟩ :: [])
      = some ([Event.printf (bytesOf "Connected to destination server\n")]
          ++ ([] ++ [Event.write Fd.conn []])
          ++ [Event.close Fd.dest, Event.close Fd.conn,
              Event.printf (bytesOf "Connection terminated\n")])
    ∧ connThread true ⟨0, 0, 0, 0, []⟩ [] ⟨3, false, 0⟩
        ([⟨0, [], 0, 0, false, [], 0⟩] ++ ⟨0, [], 0, 1, true, [], 0⟩ :: [])
      = some ([Event.printf (bytesOf "Connected to destination server\n")]
          ++ ([] ++ ([] ++ [Event.write Fd.dest []]))
          ++ [Event.close Fd.dest, Event.close Fd.conn,
              Event.printf (bytesOf "Connection terminated\n")]) := by
  constructor
  · have h := empty_chunk_ends_session true ⟨0, 0, 0, 0, []⟩ [] ⟨3, false, 0⟩ [] []
      (by decide) rfl (by decide) rfl
    obtain ⟨b, _, hup, _⟩ := h.2.1
    exact hup ⟨1, [], 0, 0, false, [], 0⟩ [] (by decide) (h.2.2.1 b [] rfl)
  · have h := empty_chunk_ends_session true ⟨0, 0, 0, 0, []⟩ [] ⟨3, false, 0⟩
      [⟨0, [], 0, 0, false, [], 0⟩] [] (by decide) rfl (by decide) rfl
    obtain ⟨b, _, _, hcl⟩ := h.2.1
    exact hcl ⟨0, [], 0, 1, true, [], 0⟩ [] [] b rfl (by decide) rfl (h.2.2.1 b [] rfl)

end Proxy
